import Mathlib

/-!
# Verification of the Card_Game poker engine

Shallow embedding of the chip ledger (models/chip.py), the hand evaluator and
showdown resolver (actions/showdown.py), and the betting round engine
(actions/betting.py), together with theorems settling the specification
claims about them.

Python dictionaries with integer keys are modelled as insertion-ordered
association lists over Nat; dictionary operations below mirror the CPython
semantics used by the source (update-in-place for an existing key, append
for a new key, deletion removes the entry).
-/

set_option maxRecDepth 4000

/-- Python dict lookup with default 0: d.get(k, 0). -/
def dget (m : List (Nat × Nat)) (k : Nat) : Nat :=
  match m with
  | [] => 0
  | (k', v) :: rest => if k' = k then v else dget rest k

/-- Python membership test: k in d. -/
def dmem (m : List (Nat × Nat)) (k : Nat) : Bool :=
  match m with
  | [] => false
  | (k', _) :: rest => k' = k || dmem rest k

/-- Python dict assignment d[k] = v: update the existing entry in place,
otherwise append a fresh entry at the end. -/
def dset (m : List (Nat × Nat)) (k v : Nat) : List (Nat × Nat) :=
  match m with
  | [] => [(k, v)]
  | (k', v') :: rest => if k' = k then (k, v) :: rest else (k', v') :: dset rest k v

/-- Python del d[k]: remove the entry for k. -/
def ddel (m : List (Nat × Nat)) (k : Nat) : List (Nat × Nat) :=
  match m with
  | [] => []
  | (k', v') :: rest => if k' = k then rest else (k', v') :: ddel rest k

/-- The keys of the dictionary, in insertion order. -/
def dkeys (m : List (Nat × Nat)) : List Nat := m.map Prod.fst

/-- sorted(l, reverse=True) for a list of distinct keys. -/
def sortDesc (l : List Nat) : List Nat := List.insertionSort (· ≥ ·) l

/-- sorted(l). -/
def sortAsc (l : List Nat) : List Nat := List.insertionSort (· ≤ ·) l

/-- Well-formedness of a chip dictionary: distinct keys, positive
denominations and strictly positive counts (the invariant the spec states
for ChipHolder). -/
def wfChips (m : List (Nat × Nat)) : Prop :=
  (dkeys m).Nodup ∧ ∀ p ∈ m, 0 < p.1 ∧ 0 < p.2

instance (m : List (Nat × Nat)) : Decidable (wfChips m) := by
  unfold wfChips; infer_instance

/-- ChipHolder (models/chip.py): a mapping from chip value to quantity plus
the denomination list used for bank exchanges. -/
structure ChipHolder where
  chips : List (Nat × Nat)
  denominations : List Nat
deriving DecidableEq, Repr, Inhabited

/-- ChipHolder.__init__: the chips dictionary is copied verbatim (no
validation); denominations default to [1] and are sorted otherwise. -/
def ChipHolder.init (chips : List (Nat × Nat)) (denominations : List Nat) : ChipHolder :=
  { chips := chips
    denominations := if denominations = [] then [1] else sortAsc denominations }

/-- ChipHolder.total: sum of value times quantity. -/
def ChipHolder.total (h : ChipHolder) : Nat :=
  (h.chips.map (fun p => p.1 * p.2)).sum

/-- ChipHolder.is_empty. -/
def ChipHolder.is_empty (h : ChipHolder) : Bool := h.chips.isEmpty

/-- ChipHolder.add_chips. Quantities are naturals in this embedding, so the
source guard against negative quantities is vacuous; the guard against a
non-positive chip value and the early return for quantity zero are kept. -/
def ChipHolder.add_chips (h : ChipHolder) (value quantity : Nat) : Except String ChipHolder :=
  if value = 0 then .error "Chip value must be positive"
  else if quantity = 0 then .ok h
  else .ok { h with chips := dset h.chips value (dget h.chips value + quantity) }

/-- ChipHolder.remove_chips: subtract the quantity, deleting the entry when
the count reaches zero; error when fewer chips are held than requested. -/
def ChipHolder.remove_chips (h : ChipHolder) (value quantity : Nat) : Except String ChipHolder :=
  if quantity = 0 then .ok h
  else
    let current := dget h.chips value
    if current < quantity then .error "Not enough chips of this value"
    else if current = quantity then .ok { h with chips := ddel h.chips value }
    else .ok { h with chips := dset h.chips value (current - quantity) }

/-- ChipHolder._calculate_chip_transfer greedy loop body: walk the held
denominations largest first, taking min(remaining // value, available)
chips of each. Returns the transfer list (in build order) and the final
remaining amount. -/
def calc_transfer_go (chips : List (Nat × Nat)) :
    List Nat → Nat → List (Nat × Nat) → (List (Nat × Nat) × Nat)
  | [], remaining, acc => (acc, remaining)
  | value :: rest, remaining, acc =>
    let available := dget chips value
    let needed := remaining / value
    if needed > 0 then
      let transfer_count := min needed available
      calc_transfer_go chips rest (remaining - transfer_count * value)
        (acc ++ [(value, transfer_count)])
    else
      calc_transfer_go chips rest remaining acc

/-- ChipHolder._calculate_chip_transfer: greedy largest-denomination-first
decomposition of amount over the current inventory; error when the held
chips cannot make exact change. -/
def ChipHolder.calculate_chip_transfer (h : ChipHolder) (amount : Nat) :
    Except String (List (Nat × Nat)) :=
  let r := calc_transfer_go h.chips (sortDesc (dkeys h.chips)) amount []
  if r.2 > 0 then .error "Cannot make exact change for amount with available chips"
  else .ok r.1

/-- ChipHolder._calculate_breakdown greedy loop over the denominations
smaller than the chip being broken, largest first. -/
def calc_breakdown_go : List Nat → Nat → List (Nat × Nat) → (List (Nat × Nat) × Nat)
  | [], remaining, acc => (acc, remaining)
  | denom :: rest, remaining, acc =>
    if remaining ≥ denom then
      let count := remaining / denom
      calc_breakdown_go rest (remaining - count * denom) (acc ++ [(denom, count)])
    else
      calc_breakdown_go rest remaining acc

/-- ChipHolder._calculate_breakdown: break one chip into bank denominations,
greedy largest first; any remainder is added as that many chips of the
smallest denomination (note: this is a chip count, not a value). -/
def ChipHolder.calculate_breakdown (h : ChipHolder) (chip_value : Nat) : List (Nat × Nat) :=
  let r := calc_breakdown_go
    (sortDesc (h.denominations.filter (· < chip_value))) chip_value []
  if r.2 > 0 then
    let smallest := h.denominations.headD 0
    dset r.1 smallest (dget r.1 smallest + r.2)
  else r.1

/-- Fold adding a breakdown list into a holder via add_chips. -/
def add_breakdown (h : ChipHolder) : List (Nat × Nat) → Except String ChipHolder
  | [] => .ok h
  | (v, q) :: rest =>
    match h.add_chips v q with
    | .error e => .error e
    | .ok h1 => add_breakdown h1 rest

/-- First (largest) held denomination strictly above the amount that still
has a positive count, mirroring the for loop in _exchange_with_bank. -/
def find_breakable (chips : List (Nat × Nat)) (sorted_keys : List Nat) (amount : Nat) :
    Option Nat :=
  match sorted_keys with
  | [] => none
  | v :: rest =>
    if dget chips v > 0 && v > amount then some v else find_breakable chips rest amount

/-- max(keys) for the fallback branch of _exchange_with_bank; Python raises
on an empty dictionary. -/
def maxKey (m : List (Nat × Nat)) : Except String Nat :=
  match dkeys m with
  | [] => .error "max arg is an empty sequence"
  | k :: rest => .ok (rest.foldl max k)

/-- ChipHolder._exchange_with_bank: break one chip larger than the amount
(or else one of the largest chips held) into bank denominations. -/
def ChipHolder.exchange_with_bank (h : ChipHolder) (amount : Nat) : Except String ChipHolder :=
  match find_breakable h.chips (sortDesc (dkeys h.chips)) amount with
  | some chip_value =>
    match h.remove_chips chip_value 1 with
    | .error e => .error e
    | .ok h1 => add_breakdown h1 (h.calculate_breakdown chip_value)
  | none =>
    match maxKey h.chips with
    | .error e => .error e
    | .ok largest =>
      if dget h.chips largest > 0 then
        match h.remove_chips largest 1 with
        | .error e => .error e
        | .ok h1 => add_breakdown h1 (h.calculate_breakdown largest)
      else .ok h

/-- The removal/addition loop of transfer_to: for each entry of the
computed transfer, remove from the source and add to the destination. On
error the partially mutated pair is carried (Python raises after having
mutated the objects). -/
def transfer_apply (src dst : ChipHolder) :
    List (Nat × Nat) → Except (String × ChipHolder × ChipHolder) (ChipHolder × ChipHolder)
  | [] => .ok (src, dst)
  | (v, q) :: rest =>
    match src.remove_chips v q with
    | .error e => .error (e, src, dst)
    | .ok src' =>
      match dst.add_chips v q with
      | .error e => .error (e, src', dst)
      | .ok dst' => transfer_apply src' dst' rest

/-- The bounded retry loop of transfer_to (max_attempts = 100 in the
source): try the greedy transfer, otherwise exchange with the bank and
retry. -/
def transfer_go (src dst : ChipHolder) (amount : Nat) :
    Nat → Except (String × ChipHolder × ChipHolder) (ChipHolder × ChipHolder)
  | 0 => .error ("Could not transfer after 100 bank exchanges", src, dst)
  | fuel + 1 =>
    match src.calculate_chip_transfer amount with
    | .ok chips_to_transfer => transfer_apply src dst chips_to_transfer
    | .error _ =>
      match src.exchange_with_bank amount with
      | .ok src' => transfer_go src' dst amount fuel
      | .error e => .error (e, src, dst)

/-- ChipHolder.transfer_to: move exactly the given amount, exchanging with
the bank when exact change is not directly available. Errors carry the
holder states at the point of failure. -/
def ChipHolder.transfer_to (src dst : ChipHolder) (amount : Nat) :
    Except (String × ChipHolder × ChipHolder) (ChipHolder × ChipHolder) :=
  if amount = 0 then .ok (src, dst)
  else if src.total < amount then .error ("Not enough chips", src, dst)
  else transfer_go src dst amount 100

/-- ChipHolder.transfer_all_to: iterate over a snapshot of the source
entries, adding each to the destination and then removing it from the
source. -/
def transfer_all_go (src dst : ChipHolder) :
    List (Nat × Nat) → Except (String × ChipHolder × ChipHolder) (ChipHolder × ChipHolder)
  | [] => .ok (src, dst)
  | (v, q) :: rest =>
    match dst.add_chips v q with
    | .error e => .error (e, src, dst)
    | .ok dst' =>
      match src.remove_chips v q with
      | .error e => .error (e, src, dst')
      | .ok src' => transfer_all_go src' dst' rest

/-- ChipHolder.transfer_all_to entry point. -/
def ChipHolder.transfer_all_to (src dst : ChipHolder) :
    Except (String × ChipHolder × ChipHolder) (ChipHolder × ChipHolder) :=
  transfer_all_go src dst src.chips

/-- Full well-formedness of a holder: valid chip dictionary and a
non-empty, positive denomination list. -/
def ChipHolder.WF (h : ChipHolder) : Prop :=
  wfChips h.chips ∧ h.denominations ≠ [] ∧ ∀ d ∈ h.denominations, 0 < d

instance (h : ChipHolder) : Decidable h.WF := by
  unfold ChipHolder.WF; infer_instance

/-! ## Cards and the hand evaluator (models/card.py, actions/showdown.py) -/

/-- Suit (models/card.py). -/
inductive Suit where
  | hearts | diamonds | clubs | spades
deriving DecidableEq, Repr, Inhabited

/-- Card: rank is the Rank enum value (2..14, ace = 14). -/
structure Card where
  rank : Nat
  suit : Suit
deriving DecidableEq, Repr, Inhabited

/-- Python tuple comparison a < b on variable-length integer tuples:
lexicographic, a strict prefix compares smaller. The evaluator compares
hand values with this ordering (the source uses the tuple > operator). -/
def tuple_lt : List Nat → List Nat → Bool
  | [], [] => false
  | [], _ :: _ => true
  | _ :: _, [] => false
  | a :: as, b :: bs => if a < b then true else if b < a then false else tuple_lt as bs

/-- _is_straight: five consecutive ranks when sorted ascending, or the
wheel {2,3,4,5,14}. -/
def is_straight (ranks : List Nat) : Bool :=
  let s := sortAsc ranks
  s == List.range' (s.headD 0) 5 || s == [2, 3, 4, 5, 14]

/-- max over a list of naturals (Python max over a non-empty list). -/
def listMax (l : List Nat) : Nat := l.foldr max 0

/-- _evaluate_five_cards (actions/showdown.py): category and tiebreakers as
one integer list, higher is better under tuple_lt. -/
def evaluate_five_cards (cards : List Card) : List Nat :=
  let ranks := sortDesc (cards.map (·.rank))
  let suits := cards.map (·.suit)
  let is_flush := match suits with
    | [] => false
    | s :: rest => rest.all (· == s)
  let straight := is_straight ranks
  let distinct := ranks.dedup
  let cnt := fun r => ranks.count r
  let counts := sortDesc (distinct.map cnt)
  if straight && is_flush then [9, listMax ranks]
  else if counts == [4, 1] then
    let four_kind := ((distinct.filter (fun r => cnt r == 4)).headD 0)
    let kicker := ((distinct.filter (fun r => cnt r == 1)).headD 0)
    [8, four_kind, kicker]
  else if counts == [3, 2] then
    let three_kind := ((distinct.filter (fun r => cnt r == 3)).headD 0)
    let pair := ((distinct.filter (fun r => cnt r == 2)).headD 0)
    [7, three_kind, pair]
  else if is_flush then 6 :: ranks
  else if straight then [5, listMax ranks]
  else if counts == [3, 1, 1] then
    let three_kind := ((distinct.filter (fun r => cnt r == 3)).headD 0)
    let kickers := sortDesc (distinct.filter (fun r => cnt r == 1))
    4 :: three_kind :: kickers
  else if counts == [2, 2, 1] then
    let pairs := sortDesc (distinct.filter (fun r => cnt r == 2))
    let kicker := ((distinct.filter (fun r => cnt r == 1)).headD 0)
    [3, pairs.headD 0, (pairs.drop 1).headD 0, kicker]
  else if counts == [2, 1, 1, 1] then
    let pair := ((distinct.filter (fun r => cnt r == 2)).headD 0)
    let kickers := sortDesc (distinct.filter (fun r => cnt r == 1))
    2 :: pair :: kickers
  else 1 :: ranks

/-- itertools.combinations: all k-element sublists in the order the Python
library enumerates them. -/
def combinations {α : Type} : Nat → List α → List (List α)
  | 0, _ => [[]]
  | _ + 1, [] => []
  | k + 1, x :: xs => (combinations k xs).map (x :: ·) ++ combinations (k + 1) xs

/-- The fold computing the running best hand value in evaluate_hand. -/
def best_step (best : Option (List Nat)) (cards5 : List Card) : Option (List Nat) :=
  let hand_value := evaluate_five_cards cards5
  match best with
  | none => some hand_value
  | some b => if tuple_lt b hand_value then some hand_value else some b

/-- evaluate_hand (actions/showdown.py): error on fewer than five cards,
otherwise the best value over all five-card combinations (None only when
there are no combinations, which cannot happen with at least five cards). -/
def evaluate_hand (cards : List Card) : Except String (Option (List Nat)) :=
  if cards.length < 5 then .error "Need at least 5 cards to evaluate"
  else .ok ((combinations 5 cards).foldl best_step none)

/-- hand_name lookup table. -/
def hand_name (hand_rank : List Nat) : String :=
  match hand_rank.headD 0 with
  | 9 => "Straight Flush"
  | 8 => "Four of a Kind"
  | 7 => "Full House"
  | 6 => "Flush"
  | 5 => "Straight"
  | 4 => "Three of a Kind"
  | 3 => "Two Pair"
  | 2 => "One Pair"
  | 1 => "High Card"
  | _ => "Unknown"

/-! ## Game state and the showdown resolver (models/game.py, actions/showdown.py)

Players are addressed by their index in the player list; in every state the
claims exercise, player_num equals that index, as in the source after
initialize_game. The deck, burn cards and phase string play no part in any
claim and are omitted from the state. -/

/-- Player (models/player.py). -/
structure Player where
  player_num : Nat
  chips : ChipHolder
  hand : List Card
  folded : Bool
  bet : Nat
deriving DecidableEq, Repr, Inhabited

/-- PokerState (models/game.py), restricted to the fields the claims use. -/
structure PokerState where
  blind_amount : Nat
  players : List Player
  community_cards : List Card
  pot : ChipHolder
  dealer_index : Nat
deriving DecidableEq, Repr, Inhabited

/-- Read a player by index (list indices are always in bounds where used). -/
def getPlayer (g : PokerState) (i : Nat) : Player := g.players.getD i default

/-- Replace a player by index. -/
def setPlayer (g : PokerState) (i : Nat) (p : Player) : PokerState :=
  { g with players := g.players.set i p }

/-- Indices of players who have not folded, in seat order. -/
def activeIdx (g : PokerState) : List Nat :=
  (List.range g.players.length).filter (fun i => !(getPlayer g i).folded)

/-- Stable descending insertion of a ranked entry: an element is placed
before the first element whose hand value is strictly smaller, so earlier
entries stay first among ties (CPython sort with reverse=True is stable). -/
def insertRanked (x : Nat × List Nat) : List (Nat × List Nat) → List (Nat × List Nat)
  | [] => [x]
  | y :: ys => if tuple_lt y.2 x.2 then x :: y :: ys else y :: insertRanked x ys

/-- player_results.sort(key=hand value, reverse=True), stable. -/
def sortRanked (l : List (Nat × List Nat)) : List (Nat × List Nat) :=
  l.foldl (fun acc x => insertRanked x acc) []

/-- The evaluation loop of showdown(): each active player index paired with
the value of their hole cards plus the community cards; evaluator errors
propagate. -/
def rank_players (g : PokerState) : List Nat → Except String (List (Nat × List Nat))
  | [] => .ok []
  | i :: rest => do
    let r ← evaluate_hand ((getPlayer g i).hand ++ g.community_cards)
    match r with
    | some v => do
      let tail ← rank_players g rest
      .ok ((i, v) :: tail)
    | none => .error "no five-card combination"

/-- showdown (actions/showdown.py): evaluate all active players and sort
best first; error when no active players remain. -/
def showdown (g : PokerState) : Except String (List (Nat × List Nat)) := do
  match activeIdx g with
  | [] => .error "No active players for showdown"
  | active => do
    let results ← rank_players g active
    .ok (sortRanked results)

/-- The award loop of award_pot: the i-th winner (0-based enumeration
order) receives pot_share plus one when i < remainder; a transfer error
propagates, with the partially updated state carried. -/
def award_go (pot_share remainder : Nat) :
    PokerState → Nat → List (Nat × List Nat) → Except (String × PokerState) PokerState
  | g, _, [] => .ok g
  | g, i, (w, _) :: rest =>
    let amount := pot_share + (if i < remainder then 1 else 0)
    match g.pot.transfer_to (getPlayer g w).chips amount with
    | .ok (pot', chips') =>
      award_go pot_share remainder
        (setPlayer { g with pot := pot' } w { getPlayer g w with chips := chips' }) (i + 1) rest
    | .error (e, pot', chips') =>
      .error (e, setPlayer { g with pot := pot' } w { getPlayer g w with chips := chips' })

/-- award_pot (actions/showdown.py): split the pot among all entries tied
with the best hand value, distributing the remainder one unit at a time to
the earliest winners. Returns the winner indices. -/
def award_pot (g : PokerState) (ranked : List (Nat × List Nat)) :
    Except (String × PokerState) (List Nat × PokerState) :=
  match ranked with
  | [] => .error ("No players to award pot to", g)
  | best :: _ =>
    let winners := ranked.filter (fun r => r.2 == best.2)
    let pot_total := g.pot.total
    let pot_share := pot_total / winners.length
    let remainder := pot_total % winners.length
    match award_go pot_share remainder g 0 winners with
    | .ok g' => .ok (winners.map Prod.fst, g')
    | .error e => .error e

/-- The equal-split loop of the insufficient-cards branch of
execute_showdown: like award_go but guarded by amount > 0 as in the
source. -/
def split_go (share remainder : Nat) :
    PokerState → Nat → List Nat → Except (String × PokerState) PokerState
  | g, _, [] => .ok g
  | g, i, w :: rest =>
    let amount := share + (if i < remainder then 1 else 0)
    if amount > 0 then
      match g.pot.transfer_to (getPlayer g w).chips amount with
      | .ok (pot', chips') =>
        split_go share remainder
          (setPlayer { g with pot := pot' } w { getPlayer g w with chips := chips' }) (i + 1) rest
      | .error (e, pot', chips') =>
        .error (e, setPlayer { g with pot := pot' } w { getPlayer g w with chips := chips' })
    else split_go share remainder g (i + 1) rest

/-- ShowdownManager.execute_showdown: single-survivor award (hand
evaluation never invoked, transfer errors swallowed), equal split when
fewer than five cards are visible, otherwise full evaluation through
showdown and award_pot. Returns winner indices and the new state. -/
def execute_showdown (g : PokerState) : Except (String × PokerState) (List Nat × PokerState) :=
  let active := activeIdx g
  if active.length = 1 then
    let wi := active.headD 0
    let pot_total := g.pot.total
    if pot_total > 0 then
      match g.pot.transfer_to (getPlayer g wi).chips pot_total with
      | .ok (pot', chips') =>
        .ok ([wi], setPlayer { g with pot := pot' } wi { getPlayer g wi with chips := chips' })
      | .error (_, pot', chips') =>
        -- the source prints the error and still returns the winner
        .ok ([wi], setPlayer { g with pot := pot' } wi { getPlayer g wi with chips := chips' })
    else .ok ([wi], g)
  else
    let total_cards := (active.map (fun i => (getPlayer g i).hand.length)).sum
      + g.community_cards.length
    if total_cards < 5 then
      if active.length = 0 then .error ("integer division by zero", g)
      else
        let pot_total := g.pot.total
        let share := pot_total / active.length
        let remainder := pot_total % active.length
        match split_go share remainder g 0 active with
        | .ok g' => .ok (active, g')
        | .error e => .error e
    else
      match showdown g with
      | .ok ranked => award_pot g ranked
      | .error e => .error (e, g)

/-! ## Betting round engine (actions/betting.py)

Action providers are modelled as per-player scripts: the provider for
player_num p returns the next unconsumed string of scripts[p]. A round gets
stuck (result none) only when a script runs dry, which models a provider
that never answers, or when the loop fuel is exhausted; the source loop has
no fuel bound of its own, so termination claims are stated as: some fuel
makes the round return. The final has_acted flags and current bet, local
variables of the source loop, are returned alongside the state so that the
termination condition can be stated about them. -/

/-- Scripts: scripts[p] is the list of action strings player p will
produce, in order. -/
def Scripts := List (List String)

instance : DecidableEq Scripts := inferInstanceAs (DecidableEq (List (List String)))

/-- Python str.startswith, over the character list of the string (the
builtin String.startsWith does not reduce in the kernel). -/
def str_startsWith (s pre : String) : Bool := pre.data.isPrefixOf s.data

/-- Python str.lower for the ASCII action strings. -/
def str_toLower (s : String) : String := ⟨s.data.map Char.toLower⟩

/-- Python str.split() with no argument: split on space runs, dropping
empty pieces. The source only ever splits action strings on spaces. -/
def py_split_whitespace (s : String) : List String :=
  ((s.data.splitOnP (fun c => c == ' ')).filter (· ≠ [])).map (fun cs => ⟨cs⟩)

/-- Value of a non-empty list of decimal digits. -/
def digitsToNat (l : List Char) : Nat :=
  l.foldl (fun acc c => acc * 10 + (c.toNat - ('0' : Char).toNat)) 0

/-- Python int(s) on the forms the engine meets: an optional minus sign
followed by decimal digits; anything else raises, which the caller turns
into a rejected action. -/
def py_parse_int (s : String) : Option Int :=
  match s.data with
  | [] => none
  | '-' :: ds =>
    if ds ≠ [] ∧ ds.all Char.isDigit then some (-(digitsToNat ds : Int)) else none
  | ds => if ds.all Char.isDigit then some (digitsToNat ds : Int) else none

/-- BettingManager._post_amount: clamp to the available stack, transfer to
the pot and record the bet; on a transfer error the source prints and
continues, keeping whatever exchange mutations happened, and the bet is
not recorded. -/
def post_amount (g : PokerState) (idx : Nat) (amount : Nat) : PokerState :=
  let player := getPlayer g idx
  let available := player.chips.total
  let actual_amount := min amount available
  if actual_amount > 0 then
    match player.chips.transfer_to g.pot actual_amount with
    | .ok (chips', pot') =>
      setPlayer { g with pot := pot' } idx
        { player with chips := chips', bet := player.bet + actual_amount }
    | .error (_, chips', pot') =>
      setPlayer { g with pot := pot' } idx { player with chips := chips' }
  else g

/-- BettingManager._process_check: valid exactly when the bet already
matches; no state is touched either way. -/
def process_check (player : Player) (current_bet : Nat) : Bool :=
  player.bet == current_bet

/-- Parse the amount of a raise action: second whitespace token as an
integer (int(parts[1]) in the source). -/
def parse_raise_amt (action : String) : Option Int :=
  match py_split_whitespace action with
  | _ :: second :: _ => py_parse_int second
  | _ => none

/-- BettingManager._handle_player_action: consume scripted actions until
one is valid, dispatching on string prefixes exactly as the source does.
Returns the new state, the new current bet, the raiser (if any) and the
remaining scripts; none when the script runs dry. Structural recursion on
the acting player's script. -/
def handle_player_action (g : PokerState) (idx current_bet : Nat) :
    List String → Option (PokerState × Nat × Option Nat × List String)
  | [] => none
  | a :: rest =>
    let action := str_toLower a
    let player := getPlayer g idx
    if str_startsWith action "fold" then
      some (setPlayer g idx { player with folded := true }, current_bet, none, rest)
    else if str_startsWith action "check" then
      if process_check player current_bet then some (g, current_bet, none, rest)
      else handle_player_action g idx current_bet rest
    else if str_startsWith action "call" then
      let amount_to_call := current_bet - player.bet
      if amount_to_call > 0 then some (post_amount g idx amount_to_call, current_bet, none, rest)
      else some (g, current_bet, none, rest)
    else if str_startsWith action "allin" then
      let amt := player.chips.total
      let g' := post_amount g idx amt
      let player' := getPlayer g' idx
      if player'.bet > current_bet then some (g', player'.bet, some idx, rest)
      else some (g', current_bet, none, rest)
    else if str_startsWith action "raise" then
      match parse_raise_amt action with
      | some n =>
        if n ≤ 0 then handle_player_action g idx current_bet rest
        else
          let raise_amt := n.toNat
          let amount_to_call := current_bet - player.bet
          let total_required := amount_to_call + raise_amt
          let g' := post_amount g idx total_required
          let player' := getPlayer g' idx
          if player'.bet > current_bet then some (g', player'.bet, some idx, rest)
          else some (g', current_bet, none, rest)
      | none => handle_player_action g idx current_bet rest
    else handle_player_action g idx current_bet rest

/-- The termination test of _betting_round: every player is folded,
all-in, or has acted and matched the current bet. -/
def all_done (g : PokerState) (has_acted : List Bool) (current_bet : Nat) : Bool :=
  (List.range g.players.length).all fun i =>
    let p := getPlayer g i
    p.folded || p.chips.total == 0 || (has_acted.getD i false && p.bet == current_bet)

/-- BettingManager._get_current_bet: max bet across players, default 0. -/
def get_current_bet (g : PokerState) : Nat :=
  listMax (g.players.map (·.bet))

/-- Players not folded (BettingManager._get_active_players). -/
def get_active_players (g : PokerState) : List Player :=
  g.players.filter (fun p => !p.folded)

/-- The while loop of _betting_round. The scripts stand in for the
providers dictionary, keyed by player_num. -/
def betting_loop (fuel : Nat) (g : PokerState) (scripts : Scripts) (has_acted : List Bool)
    (last_raiser_idx : Option Nat) (current_bet : Nat) (idx : Nat) :
    Option (PokerState × Scripts × List Bool × Nat) :=
  match fuel with
  | 0 => none
  | fuel + 1 =>
    let num_players := g.players.length
    let player := getPlayer g idx
    if player.folded || player.chips.total == 0 then
      let idx' := (idx + 1) % num_players
      if all_done g has_acted current_bet then some (g, scripts, has_acted, current_bet)
      else betting_loop fuel g scripts has_acted last_raiser_idx current_bet idx'
    else if has_acted.getD idx false && player.bet == current_bet &&
        (last_raiser_idx.elim true (fun lr => idx ≠ lr)) then
      let idx' := (idx + 1) % num_players
      if all_done g has_acted current_bet then some (g, scripts, has_acted, current_bet)
      else betting_loop fuel g scripts has_acted last_raiser_idx current_bet idx'
    else
      match handle_player_action g idx current_bet (List.getD scripts player.player_num []) with
      | none => none
      | some (g', new_bet, raiser_idx, rest) =>
          let scripts' := List.set scripts player.player_num rest
          let has_acted' := has_acted.set idx true
          let last_raiser' := match raiser_idx with
            | some r => some r
            | none => last_raiser_idx
          let current_bet' := match raiser_idx with
            | some _ => new_bet
            | none => current_bet
          if (get_active_players g').length ≤ 1 then
            some (g', scripts', has_acted', current_bet')
          else if all_done g' has_acted' current_bet' then
            some (g', scripts', has_acted', current_bet')
          else betting_loop fuel g' scripts' has_acted' last_raiser' current_bet' ((idx + 1) % num_players)

/-- BettingManager._betting_round: compute the bet to match, skip the round
entirely when at most one non-folded player still has chips, otherwise run
the loop with fresh has_acted flags. -/
def betting_round (g : PokerState) (scripts : Scripts) (starting_player_idx : Nat)
    (fuel : Nat) : Option (PokerState × Scripts × List Bool × Nat) :=
  let current_bet := get_current_bet g
  let active_with_chips := g.players.filter (fun p => !p.folded && p.chips.total != 0)
  if active_with_chips.length ≤ 1 then some (g, scripts, List.replicate g.players.length false, current_bet)
  else betting_loop fuel g scripts (List.replicate g.players.length false) none current_bet
    starting_player_idx

/-! ## Claim C1: chip conservation under transfer_to -/

/-- A holder with a single 27 chip whose bank denominations are 5 and 25:
the failing input for chip conservation. -/
def holder27 : ChipHolder := ChipHolder.init [(27, 1)] [5, 25]

/-- C1. The conservation claim fails on the bank-exchange path:
transferring 25 out of a holder with one 27 chip and denominations
[5, 25] succeeds, the destination gains exactly 25, but the source drops
from 27 to 10 (the exchange breaks the 27 chip into 25 + 5 + 5 = 35,
because _calculate_breakdown adds the remainder 2 as a chip count of the
smallest denomination 5 instead of as a value). -/
theorem transfer_to_bank_exchange_creates_value :
    holder27.total = 27 ∧
    holder27.transfer_to (ChipHolder.init [] []) 25 =
      .ok ({ chips := [(5, 2)], denominations := [5, 25] },
           { chips := [(25, 1)], denominations := [1] }) ∧
    ChipHolder.total { chips := [(5, 2)], denominations := [5, 25] } = 10 ∧
    ChipHolder.total { chips := [(25, 1)], denominations := [1] } = 25 := by
  refine ⟨by decide, rfl, by decide, by decide⟩

/-! ## Claim C2: the wheel straight -/

/-- The wheel A-2-3-4-5 of mixed suits. -/
def wheelHand : List Card :=
  [⟨14, .spades⟩, ⟨2, .hearts⟩, ⟨3, .diamonds⟩, ⟨4, .clubs⟩, ⟨5, .spades⟩]

/-- The literal hand of the claim, {6H,5H,4H,3H,2H}, is all hearts and so
is a straight flush, category 9, not a plain straight. -/
def sixHighHeartsHand : List Card :=
  [⟨6, .hearts⟩, ⟨5, .hearts⟩, ⟨4, .hearts⟩, ⟨3, .hearts⟩, ⟨2, .hearts⟩]

/-- A genuine 6-high straight of mixed suits, category 5. -/
def sixHighStraightHand : List Card :=
  [⟨6, .hearts⟩, ⟨5, .diamonds⟩, ⟨4, .clubs⟩, ⟨3, .spades⟩, ⟨2, .hearts⟩]

/-- C2. The code evaluates the wheel as category 5 with tiebreak 14 (the
ace), not 5: _evaluate_five_cards returns (5, max(ranks)) and max counts
the ace as 14. Consequently the wheel compares strictly above a 6-high
straight instead of below it. (The literal hand of the claim is all
hearts, hence a straight flush, category 9.) -/
theorem wheel_straight_tiebreak_is_ace :
    evaluate_five_cards wheelHand = [5, 14] ∧
    evaluate_five_cards sixHighStraightHand = [5, 6] ∧
    tuple_lt (evaluate_five_cards wheelHand) (evaluate_five_cards sixHighStraightHand) = false ∧
    tuple_lt (evaluate_five_cards sixHighStraightHand) (evaluate_five_cards wheelHand) = true ∧
    evaluate_five_cards sixHighHeartsHand = [9, 6] := by
  decide

/-! ## Claim C5: the full category ordering on literal hands -/

/-- Royal flush in spades. -/
def handRoyal : List Card :=
  [⟨14, .spades⟩, ⟨13, .spades⟩, ⟨12, .spades⟩, ⟨11, .spades⟩, ⟨10, .spades⟩]

/-- 9-high straight flush in spades. -/
def handNineSF : List Card :=
  [⟨9, .spades⟩, ⟨8, .spades⟩, ⟨7, .spades⟩, ⟨6, .spades⟩, ⟨5, .spades⟩]

/-- Four aces with a king. -/
def handQuads : List Card :=
  [⟨14, .hearts⟩, ⟨14, .diamonds⟩, ⟨14, .clubs⟩, ⟨14, .spades⟩, ⟨13, .hearts⟩]

/-- Aces full of kings. -/
def handFull : List Card :=
  [⟨14, .hearts⟩, ⟨14, .diamonds⟩, ⟨14, .clubs⟩, ⟨13, .hearts⟩, ⟨13, .diamonds⟩]

/-- Ace-high flush in hearts. -/
def handFlush : List Card :=
  [⟨14, .hearts⟩, ⟨13, .hearts⟩, ⟨12, .hearts⟩, ⟨11, .hearts⟩, ⟨9, .hearts⟩]

/-- Ten-high straight, mixed suits. -/
def handStraight : List Card :=
  [⟨10, .hearts⟩, ⟨9, .diamonds⟩, ⟨8, .clubs⟩, ⟨7, .spades⟩, ⟨6, .hearts⟩]

/-- Three aces. -/
def handTrips : List Card :=
  [⟨14, .hearts⟩, ⟨14, .diamonds⟩, ⟨14, .clubs⟩, ⟨13, .hearts⟩, ⟨12, .diamonds⟩]

/-- Aces and kings. -/
def handTwoPair : List Card :=
  [⟨14, .hearts⟩, ⟨14, .diamonds⟩, ⟨13, .hearts⟩, ⟨13, .diamonds⟩, ⟨12, .clubs⟩]

/-- One pair of aces. -/
def handPair : List Card :=
  [⟨14, .hearts⟩, ⟨14, .diamonds⟩, ⟨13, .hearts⟩, ⟨12, .diamonds⟩, ⟨11, .clubs⟩]

/-- Ace-high card. -/
def handHigh : List Card :=
  [⟨14, .hearts⟩, ⟨13, .diamonds⟩, ⟨12, .hearts⟩, ⟨11, .clubs⟩, ⟨9, .diamonds⟩]

/-- C5. _evaluate_five_cards values compare lexicographically with the
claimed literal hands in strictly descending order across all nine
categories: royal flush > 9-high straight flush > four aces > full house >
flush > straight > trips > two pair > one pair > high card, and in
particular the three literal comparisons of the claim hold. -/
theorem evaluator_category_ordering :
    tuple_lt (evaluate_five_cards handNineSF) (evaluate_five_cards handRoyal) = true ∧
    tuple_lt (evaluate_five_cards handQuads) (evaluate_five_cards handNineSF) = true ∧
    tuple_lt (evaluate_five_cards handFull) (evaluate_five_cards handQuads) = true ∧
    tuple_lt (evaluate_five_cards handFlush) (evaluate_five_cards handFull) = true ∧
    tuple_lt (evaluate_five_cards handStraight) (evaluate_five_cards handFlush) = true ∧
    tuple_lt (evaluate_five_cards handTrips) (evaluate_five_cards handStraight) = true ∧
    tuple_lt (evaluate_five_cards handTwoPair) (evaluate_five_cards handTrips) = true ∧
    tuple_lt (evaluate_five_cards handPair) (evaluate_five_cards handTwoPair) = true ∧
    tuple_lt (evaluate_five_cards handHigh) (evaluate_five_cards handPair) = true ∧
    (evaluate_five_cards handRoyal).headD 0 = 9 ∧
    (evaluate_five_cards handQuads).headD 0 = 8 ∧
    (evaluate_five_cards handFull).headD 0 = 7 ∧
    (evaluate_five_cards handFlush).headD 0 = 6 ∧
    (evaluate_five_cards handStraight).headD 0 = 5 ∧
    (evaluate_five_cards handTrips).headD 0 = 4 ∧
    (evaluate_five_cards handTwoPair).headD 0 = 3 ∧
    (evaluate_five_cards handPair).headD 0 = 2 ∧
    (evaluate_five_cards handHigh).headD 0 = 1 := by
  decide

/-! ## Dictionary lemmas -/

/-- Sum of value times count over an association list. -/
def ltotal (m : List (Nat × Nat)) : Nat := (m.map (fun p => p.1 * p.2)).sum

theorem ChipHolder.total_eq_ltotal (h : ChipHolder) : h.total = ltotal h.chips := rfl

theorem dget_dset_self (m : List (Nat × Nat)) (k v : Nat) : dget (dset m k v) k = v := by
  induction m with
  | nil => simp [dset, dget]
  | cons p rest ih =>
    obtain ⟨k', v'⟩ := p
    by_cases hk : k' = k
    · simp [dset, dget, hk]
    · simp [dset, dget, hk, ih]

theorem dget_dset_ne (m : List (Nat × Nat)) (k v w : Nat) (hw : w ≠ k) :
    dget (dset m k v) w = dget m w := by
  induction m with
  | nil => simp [dset, dget, Ne.symm hw]
  | cons p rest ih =>
    obtain ⟨k', v'⟩ := p
    by_cases hk : k' = k
    · subst hk; simp [dset, dget, Ne.symm hw]
    · by_cases hww : k' = w
      · subst hww; simp [dset, dget, hk]
      · simp [dset, dget, hk, hww, ih]

theorem dget_ddel_ne (m : List (Nat × Nat)) (k w : Nat) (hw : w ≠ k) :
    dget (ddel m k) w = dget m w := by
  induction m with
  | nil => simp [ddel]
  | cons p rest ih =>
    obtain ⟨k', v'⟩ := p
    by_cases hk : k' = k
    · subst hk; simp [ddel, dget, Ne.symm hw]
    · by_cases hww : k' = w
      · subst hww; simp [ddel, dget, hk]
      · simp [ddel, dget, hk, hww, ih]

theorem dget_eq_zero_of_not_mem (m : List (Nat × Nat)) (k : Nat)
    (h : k ∉ dkeys m) : dget m k = 0 := by
  induction m with
  | nil => rfl
  | cons p rest ih =>
    obtain ⟨k', v'⟩ := p
    simp only [dkeys, List.map_cons, List.mem_cons] at h
    push_neg at h
    simp [dget, Ne.symm h.1, ih (by simpa [dkeys] using h.2)]

theorem dget_ddel_self (m : List (Nat × Nat)) (k : Nat) (h : (dkeys m).Nodup) :
    dget (ddel m k) k = 0 := by
  induction m with
  | nil => rfl
  | cons p rest ih =>
    obtain ⟨k', v'⟩ := p
    simp only [dkeys, List.map_cons, List.nodup_cons] at h
    by_cases hk : k' = k
    · subst hk
      simpa [ddel] using dget_eq_zero_of_not_mem rest k' h.1
    · simp [ddel, dget, hk, ih h.2]

theorem dkeys_dset (m : List (Nat × Nat)) (k v : Nat) :
    dkeys (dset m k v) = if k ∈ dkeys m then dkeys m else dkeys m ++ [k] := by
  induction m with
  | nil => simp [dset, dkeys]
  | cons p rest ih =>
    obtain ⟨k', v'⟩ := p
    by_cases hk : k' = k
    · subst hk; simp [dset, dkeys]
    · simp only [dset, hk, if_false, dkeys, List.map_cons, List.mem_cons]
      simp only [dkeys] at ih
      by_cases hmem : k ∈ List.map Prod.fst rest
      · simp [hmem, ih, Ne.symm hk]
      · simp [hmem, ih, Ne.symm hk]

theorem nodup_dkeys_dset (m : List (Nat × Nat)) (k v : Nat) (h : (dkeys m).Nodup) :
    (dkeys (dset m k v)).Nodup := by
  rw [dkeys_dset]
  by_cases hmem : k ∈ dkeys m
  · simpa [hmem] using h
  · rw [if_neg hmem, List.nodup_append]
    refine ⟨h, List.nodup_singleton _, ?_⟩
    intro a ha hb
    simp only [List.mem_singleton] at hb
    subst hb
    exact hmem ha

theorem mem_dset (m : List (Nat × Nat)) (k v : Nat) (p : Nat × Nat) :
    p ∈ dset m k v → p ∈ m ∨ p = (k, v) := by
  induction m with
  | nil => intro hp; simpa [dset] using hp
  | cons q rest ih =>
    obtain ⟨k', v'⟩ := q
    intro hp
    by_cases hk : k' = k
    · subst hk
      rw [show dset ((k', v') :: rest) k' v = (k', v) :: rest by simp [dset]] at hp
      rcases List.mem_cons.mp hp with rfl | hp'
      · right; rfl
      · left; exact List.mem_cons_of_mem _ hp'
    · rw [show dset ((k', v') :: rest) k v = (k', v') :: dset rest k v by
        simp [dset, hk]] at hp
      rcases List.mem_cons.mp hp with rfl | hp'
      · left; exact List.mem_cons_self _ _
      · rcases ih hp' with h' | h'
        · left; exact List.mem_cons_of_mem _ h'
        · right; exact h'

theorem ddel_sublist (m : List (Nat × Nat)) (k : Nat) : (ddel m k).Sublist m := by
  induction m with
  | nil => simp [ddel]
  | cons p rest ih =>
    obtain ⟨k', v'⟩ := p
    by_cases hk : k' = k
    · rw [show ddel ((k', v') :: rest) k = rest by simp [ddel, hk]]
      exact List.sublist_cons_self _ _
    · rw [show ddel ((k', v') :: rest) k = (k', v') :: ddel rest k by simp [ddel, hk]]
      exact ih.cons₂ _

theorem mem_ddel (m : List (Nat × Nat)) (k : Nat) (p : Nat × Nat)
    (h : p ∈ ddel m k) : p ∈ m := (ddel_sublist m k).mem h

theorem nodup_dkeys_ddel (m : List (Nat × Nat)) (k : Nat) (h : (dkeys m).Nodup) :
    (dkeys (ddel m k)).Nodup := by
  have : (dkeys (ddel m k)).Sublist (dkeys m) := (ddel_sublist m k).map _
  exact this.nodup h

theorem ltotal_dset (m : List (Nat × Nat)) (k v : Nat) :
    ltotal (dset m k v) + k * dget m k = ltotal m + k * v := by
  induction m with
  | nil => simp [dset, dget, ltotal]
  | cons p rest ih =>
    obtain ⟨k', v'⟩ := p
    by_cases hk : k' = k
    · subst hk; simp [dset, dget, ltotal]; ring
    · simp only [dset, hk, if_false, dget, ltotal, List.map_cons, List.sum_cons]
      simp only [ltotal] at ih
      omega

theorem ltotal_ddel (m : List (Nat × Nat)) (k : Nat) :
    ltotal (ddel m k) + k * dget m k = ltotal m := by
  induction m with
  | nil => simp [ddel, dget, ltotal]
  | cons p rest ih =>
    obtain ⟨k', v'⟩ := p
    by_cases hk : k' = k
    · subst hk; simp [ddel, dget, ltotal]; ring
    · simp only [ddel, hk, if_false, dget, ltotal, List.map_cons, List.sum_cons]
      simp only [ltotal] at ih
      omega

theorem mem_of_dget_pos (m : List (Nat × Nat)) (k : Nat) (h : dget m k ≠ 0) :
    (k, dget m k) ∈ m := by
  induction m with
  | nil => exact absurd rfl h
  | cons p rest ih =>
    obtain ⟨k', v'⟩ := p
    by_cases hk : k' = k
    · subst hk
      simp only [dget, if_pos rfl] at h ⊢
      exact List.mem_cons_self _ _
    · simp only [dget, if_neg hk] at h ⊢
      exact List.mem_cons_of_mem _ (ih h)

/-! ## Lemmas about add_chips and remove_chips -/

theorem add_chips_ok (h : ChipHolder) (v q : Nat) (hv : v ≠ 0) :
    ∃ h', h.add_chips v q = .ok h' := by
  unfold ChipHolder.add_chips
  rw [if_neg hv]
  by_cases hq : q = 0
  · exact ⟨h, by rw [if_pos hq]⟩
  · exact ⟨_, by rw [if_neg hq]⟩

theorem add_chips_spec (h h' : ChipHolder) (v q : Nat)
    (hok : h.add_chips v q = .ok h') :
    h'.denominations = h.denominations ∧
    dget h'.chips v = dget h.chips v + q ∧
    (∀ w, w ≠ v → dget h'.chips w = dget h.chips w) ∧
    h'.total = h.total + v * q ∧
    ((dkeys h.chips).Nodup → (dkeys h'.chips).Nodup) ∧
    (wfChips h.chips → wfChips h'.chips) := by
  unfold ChipHolder.add_chips at hok
  by_cases hv : v = 0
  · rw [if_pos hv] at hok; exact absurd hok (by simp)
  rw [if_neg hv] at hok
  by_cases hq : q = 0
  · rw [if_pos hq] at hok
    cases hok
    subst hq
    exact ⟨rfl, by simp, fun w _ => rfl, by simp, fun hw => hw, fun hw => hw⟩
  rw [if_neg hq] at hok
  cases hok
  refine ⟨rfl, dget_dset_self _ _ _, fun w hw => dget_dset_ne _ _ _ _ hw, ?_,
    fun hnd => nodup_dkeys_dset _ _ _ hnd, ?_⟩
  · show ltotal (dset h.chips v (dget h.chips v + q)) = ltotal h.chips + v * q
    have := ltotal_dset h.chips v (dget h.chips v + q)
    rw [Nat.mul_add] at this
    omega
  · rintro ⟨hnd, hpos⟩
    refine ⟨nodup_dkeys_dset _ _ _ hnd, ?_⟩
    intro p hp
    rcases mem_dset _ _ _ _ hp with hp' | hp'
    · exact hpos p hp'
    · subst hp'
      exact ⟨Nat.pos_of_ne_zero hv, by omega⟩

theorem remove_chips_ok (h : ChipHolder) (v q : Nat) (hq : q ≤ dget h.chips v) :
    ∃ h', h.remove_chips v q = .ok h' := by
  unfold ChipHolder.remove_chips
  by_cases h0 : q = 0
  · exact ⟨h, by rw [if_pos h0]⟩
  rw [if_neg h0]
  simp only
  rw [if_neg (by omega)]
  by_cases he : dget h.chips v = q
  · exact ⟨_, by rw [if_pos he]⟩
  · exact ⟨_, by rw [if_neg he]⟩

theorem remove_chips_spec (h h' : ChipHolder) (v q : Nat)
    (hnd : (dkeys h.chips).Nodup)
    (hok : h.remove_chips v q = .ok h') :
    h'.denominations = h.denominations ∧
    q ≤ dget h.chips v ∧
    dget h'.chips v + q = dget h.chips v ∧
    (∀ w, w ≠ v → dget h'.chips w = dget h.chips w) ∧
    h'.total + v * q = h.total ∧
    (dkeys h'.chips).Nodup ∧
    (wfChips h.chips → wfChips h'.chips) := by
  unfold ChipHolder.remove_chips at hok
  by_cases h0 : q = 0
  · rw [if_pos h0] at hok
    cases hok
    subst h0
    exact ⟨rfl, Nat.zero_le _, by simp, fun w _ => rfl, by simp, hnd, fun hw => hw⟩
  rw [if_neg h0] at hok
  simp only at hok
  by_cases hlt : dget h.chips v < q
  · rw [if_pos hlt] at hok; exact absurd hok (by simp)
  rw [if_neg hlt] at hok
  by_cases he : dget h.chips v = q
  · rw [if_pos he] at hok
    cases hok
    refine ⟨rfl, by omega, ?_, fun w hw => dget_ddel_ne _ _ _ hw, ?_,
      nodup_dkeys_ddel _ _ hnd, ?_⟩
    · rw [dget_ddel_self _ _ hnd]; omega
    · show ltotal (ddel h.chips v) + v * q = ltotal h.chips
      have := ltotal_ddel h.chips v
      rw [he] at this
      omega
    · rintro ⟨hnd', hpos⟩
      exact ⟨nodup_dkeys_ddel _ _ hnd', fun p hp => hpos p (mem_ddel _ _ _ hp)⟩
  · rw [if_neg he] at hok
    cases hok
    refine ⟨rfl, by omega, ?_, fun w hw => dget_dset_ne _ _ _ _ hw, ?_,
      nodup_dkeys_dset _ _ _ hnd, ?_⟩
    · rw [dget_dset_self]; omega
    · show ltotal (dset h.chips v (dget h.chips v - q)) + v * q = ltotal h.chips
      have := ltotal_dset h.chips v (dget h.chips v - q)
      have hle : q ≤ dget h.chips v := by omega
      have : ltotal (dset h.chips v (dget h.chips v - q)) + v * dget h.chips v
          = ltotal h.chips + v * (dget h.chips v - q) := this
      nlinarith [Nat.sub_add_cancel hle]
    · rintro ⟨hnd', hpos⟩
      refine ⟨nodup_dkeys_dset _ _ _ hnd', ?_⟩
      intro p hp
      rcases mem_dset _ _ _ _ hp with hp' | hp'
      · exact hpos p hp'
      · subst hp'
        refine ⟨?_, by omega⟩
        have hdv : dget h.chips v ≠ 0 := by omega
        exact (hpos _ (mem_of_dget_pos _ _ hdv)).1

/-! ## Lemmas about the transfer loop -/

theorem dget_cons_self (v q : Nat) (rest : List (Nat × Nat)) :
    dget ((v, q) :: rest) v = q := by simp [dget]

theorem dget_cons_ne (v q w : Nat) (rest : List (Nat × Nat)) (hw : w ≠ v) :
    dget ((v, q) :: rest) w = dget rest w := by simp [dget, Ne.symm hw]

theorem transfer_apply_spec : ∀ (l : List (Nat × Nat)) (src dst : ChipHolder),
    (dkeys src.chips).Nodup →
    (dkeys l).Nodup →
    (∀ p ∈ l, 0 < p.1) →
    (∀ p ∈ l, p.2 ≤ dget src.chips p.1) →
    ∃ src' dst', transfer_apply src dst l = .ok (src', dst') ∧
      src'.denominations = src.denominations ∧
      dst'.denominations = dst.denominations ∧
      (∀ w, dget src'.chips w + dget l w = dget src.chips w) ∧
      (∀ w, dget dst'.chips w = dget dst.chips w + dget l w) ∧
      src'.total + ltotal l = src.total ∧
      dst'.total = dst.total + ltotal l ∧
      (wfChips src.chips → wfChips src'.chips) ∧
      (wfChips dst.chips → wfChips dst'.chips) := by
  intro l
  induction l with
  | nil =>
    intro src dst _ _ _ _
    exact ⟨src, dst, rfl, rfl, rfl, fun w => by simp [dget], fun w => by simp [dget],
      by simp [ltotal], by simp [ltotal], fun hw => hw, fun hw => hw⟩
  | cons p rest ih =>
    obtain ⟨v, q⟩ := p
    intro src dst hndsrc hndl hpos hbound
    have hv : 0 < v := hpos (v, q) (List.mem_cons_self _ _)
    have hq : q ≤ dget src.chips v := hbound (v, q) (List.mem_cons_self _ _)
    obtain ⟨src1, hrem⟩ := remove_chips_ok src v q hq
    obtain ⟨dst1, hadd⟩ := add_chips_ok dst v q (by omega)
    have hvrest : v ∉ dkeys rest := by
      have := (List.nodup_cons.mp (show (v :: dkeys rest).Nodup by simpa [dkeys] using hndl))
      exact this.1
    have hndrest : (dkeys rest).Nodup := by
      have := (List.nodup_cons.mp (show (v :: dkeys rest).Nodup by simpa [dkeys] using hndl))
      exact this.2
    obtain ⟨hRden, hRle, hRself, hRne, hRtot, hRnd, hRwf⟩ :=
      remove_chips_spec src src1 v q hndsrc hrem
    obtain ⟨hAden, hAself, hAne, hAtot, hAnd, hAwf⟩ := add_chips_spec dst dst1 v q hadd
    obtain ⟨src', dst', happly, hden1, hden2, hsrcw, hdstw, hsrct, hdstt, hwf1, hwf2⟩ :=
      ih src1 dst1 hRnd hndrest
        (fun p hp => hpos p (List.mem_cons_of_mem _ hp))
        (fun p hp => by
          have hne : p.1 ≠ v := by
            intro he
            exact hvrest (he ▸ (List.mem_map.mpr ⟨p, hp, rfl⟩))
          rw [hRne p.1 hne]
          exact hbound p (List.mem_cons_of_mem _ hp))
    refine ⟨src', dst', ?_, hden1.trans hRden, hden2.trans hAden, ?_, ?_, ?_, ?_,
      fun hw => hwf1 (hRwf hw), fun hw => hwf2 (hAwf hw)⟩
    · simp only [transfer_apply, hrem, hadd]
      exact happly
    · intro w
      by_cases hwv : w = v
      · subst hwv
        have h0 : dget rest w = 0 := dget_eq_zero_of_not_mem _ _ hvrest
        have h1 := hsrcw w
        rw [dget_cons_self]
        omega
      · have h1 := hsrcw w
        rw [dget_cons_ne _ _ _ _ hwv]
        rw [hRne w hwv] at h1
        omega
    · intro w
      by_cases hwv : w = v
      · subst hwv
        have h0 : dget rest w = 0 := dget_eq_zero_of_not_mem _ _ hvrest
        have h1 := hdstw w
        rw [dget_cons_self]
        omega
      · have h1 := hdstw w
        rw [dget_cons_ne _ _ _ _ hwv]
        rw [hAne w hwv] at h1
        omega
    · have hcons : ltotal ((v, q) :: rest) = v * q + ltotal rest := by simp [ltotal]
      omega
    · have hcons : ltotal ((v, q) :: rest) = v * q + ltotal rest := by simp [ltotal]
      omega

theorem transfer_apply_dst_total : ∀ (l : List (Nat × Nat)) (src dst src' dst' : ChipHolder),
    transfer_apply src dst l = .ok (src', dst') →
    dst'.total = dst.total + ltotal l ∧ dst'.denominations = dst.denominations := by
  intro l
  induction l with
  | nil =>
    intro src dst src' dst' h
    cases h
    simp [ltotal]
  | cons p rest ih =>
    obtain ⟨v, q⟩ := p
    intro src dst src' dst' h
    cases hrem : src.remove_chips v q with
    | error e =>
      simp only [transfer_apply, hrem] at h
      exact Except.noConfusion h
    | ok src1 =>
      cases hadd : dst.add_chips v q with
      | error e =>
        simp only [transfer_apply, hrem, hadd] at h
        exact Except.noConfusion h
      | ok dst1 =>
        simp only [transfer_apply, hrem, hadd] at h
        obtain ⟨ht, hd⟩ := ih src1 dst1 src' dst' h
        obtain ⟨hAden, _, _, hAtot, _, _⟩ := add_chips_spec dst dst1 v q hadd
        have hcons : ltotal ((v, q) :: rest) = v * q + ltotal rest := by simp [ltotal]
        constructor
        · rw [ht, hAtot, hcons]; omega
        · rw [hd, hAden]

/-! ## Lemmas about the greedy transfer calculation -/

theorem ltotal_append (a b : List (Nat × Nat)) : ltotal (a ++ b) = ltotal a + ltotal b := by
  simp [ltotal]

theorem calc_transfer_go_sum (chips : List (Nat × Nat)) :
    ∀ (s : List Nat) (remaining : Nat) (acc : List (Nat × Nat)),
    ltotal (calc_transfer_go chips s remaining acc).1
      + (calc_transfer_go chips s remaining acc).2 = ltotal acc + remaining := by
  intro s
  induction s with
  | nil => intro remaining acc; simp [calc_transfer_go]
  | cons v rest ih =>
    intro remaining acc
    by_cases hn : remaining / v > 0
    · simp only [calc_transfer_go, if_pos hn]
      have hc : min (remaining / v) (dget chips v) * v ≤ remaining := by
        calc min (remaining / v) (dget chips v) * v
            ≤ (remaining / v) * v := Nat.mul_le_mul_right _ (Nat.min_le_left _ _)
          _ ≤ remaining := Nat.div_mul_le_self _ _
      have := ih (remaining - min (remaining / v) (dget chips v) * v)
        (acc ++ [(v, min (remaining / v) (dget chips v))])
      rw [ltotal_append] at this
      have hone : ltotal [(v, min (remaining / v) (dget chips v))]
          = v * min (remaining / v) (dget chips v) := by simp [ltotal]
      rw [hone] at this
      rw [this]
      have hcomm : v * min (remaining / v) (dget chips v)
          = min (remaining / v) (dget chips v) * v := Nat.mul_comm _ _
      omega
    · simp only [calc_transfer_go, if_neg hn]
      exact ih remaining acc

theorem calc_transfer_go_mem (chips : List (Nat × Nat)) :
    ∀ (s : List Nat) (remaining : Nat) (acc : List (Nat × Nat)) (p : Nat × Nat),
    p ∈ (calc_transfer_go chips s remaining acc).1 →
    p ∈ acc ∨ (p.1 ∈ s ∧ p.2 ≤ dget chips p.1) := by
  intro s
  induction s with
  | nil => intro remaining acc p hp; left; simpa [calc_transfer_go] using hp
  | cons v rest ih =>
    intro remaining acc p hp
    by_cases hn : remaining / v > 0
    · simp only [calc_transfer_go, if_pos hn] at hp
      rcases ih _ _ p hp with hmem | ⟨hs, hb⟩
      · rcases List.mem_append.mp hmem with hmem | hmem
        · left; exact hmem
        · right
          simp only [List.mem_singleton] at hmem
          subst hmem
          exact ⟨List.mem_cons_self _ _, Nat.min_le_right _ _⟩
      · right; exact ⟨List.mem_cons_of_mem _ hs, hb⟩
    · simp only [calc_transfer_go, if_neg hn] at hp
      rcases ih _ _ p hp with hmem | ⟨hs, hb⟩
      · left; exact hmem
      · right; exact ⟨List.mem_cons_of_mem _ hs, hb⟩

theorem calc_transfer_go_keys (chips : List (Nat × Nat)) :
    ∀ (s : List Nat) (remaining : Nat) (acc : List (Nat × Nat)),
    (dkeys (calc_transfer_go chips s remaining acc).1).Sublist (dkeys acc ++ s) := by
  intro s
  induction s with
  | nil =>
    intro remaining acc
    simp [calc_transfer_go]
  | cons v rest ih =>
    intro remaining acc
    by_cases hn : remaining / v > 0
    · simp only [calc_transfer_go, if_pos hn]
      have := ih (remaining - min (remaining / v) (dget chips v) * v)
        (acc ++ [(v, min (remaining / v) (dget chips v))])
      have heq : dkeys (acc ++ [(v, min (remaining / v) (dget chips v))]) ++ rest
          = dkeys acc ++ v :: rest := by
        simp [dkeys]
      rwa [heq] at this
    · simp only [calc_transfer_go, if_neg hn]
      exact (ih remaining acc).trans
        (List.Sublist.append_left (List.sublist_cons_self v rest) _)

theorem sortDesc_perm (l : List Nat) : (sortDesc l).Perm l := List.perm_insertionSort _ l

theorem calculate_chip_transfer_ok_props (h : ChipHolder) (amount : Nat)
    (l : List (Nat × Nat)) (hok : h.calculate_chip_transfer amount = .ok l) :
    ltotal l = amount ∧
    (∀ p ∈ l, p.1 ∈ dkeys h.chips ∧ p.2 ≤ dget h.chips p.1) ∧
    ((dkeys h.chips).Nodup → (dkeys l).Nodup) := by
  unfold ChipHolder.calculate_chip_transfer at hok
  by_cases hrem : (calc_transfer_go h.chips (sortDesc (dkeys h.chips)) amount []).2 > 0
  · rw [if_pos hrem] at hok
    exact absurd hok (by simp)
  rw [if_neg hrem] at hok
  cases hok
  refine ⟨?_, ?_, ?_⟩
  · have := calc_transfer_go_sum h.chips (sortDesc (dkeys h.chips)) amount []
    have h0 : ltotal ([] : List (Nat × Nat)) = 0 := by simp [ltotal]
    omega
  · intro p hp
    rcases calc_transfer_go_mem h.chips _ _ _ p hp with hmem | ⟨hs, hb⟩
    · simp at hmem
    · exact ⟨(sortDesc_perm _).mem_iff.mp hs, hb⟩
  · intro hnd
    have hsub := calc_transfer_go_keys h.chips (sortDesc (dkeys h.chips)) amount []
    have : (dkeys ([] : List (Nat × Nat)) ++ sortDesc (dkeys h.chips))
        = sortDesc (dkeys h.chips) := by simp [dkeys]
    rw [this] at hsub
    exact hsub.nodup ((sortDesc_perm _).nodup_iff.mpr hnd)

theorem ltotal_keys_sum (m : List (Nat × Nat)) (hnd : (dkeys m).Nodup) :
    ((dkeys m).map (fun v => v * dget m v)).sum = ltotal m := by
  induction m with
  | nil => simp [dkeys, ltotal]
  | cons p rest ih =>
    obtain ⟨k, v⟩ := p
    simp only [dkeys, List.map_cons, List.nodup_cons] at hnd
    have hcongr : (List.map Prod.fst rest).map (fun w => w * dget ((k, v) :: rest) w)
        = (List.map Prod.fst rest).map (fun w => w * dget rest w) := by
      apply List.map_congr_left
      intro w hw
      have hwk : w ≠ k := fun he => hnd.1 (he ▸ hw)
      rw [dget_cons_ne _ _ _ _ hwk]
    simp only [dkeys, List.map_cons, List.sum_cons, dget_cons_self]
    rw [hcongr]
    have := ih hnd.2
    simp only [dkeys] at this
    rw [this]
    simp [ltotal]

theorem calc_transfer_go_full (chips : List (Nat × Nat)) :
    ∀ (s : List Nat) (acc : List (Nat × Nat)),
    (∀ v ∈ s, 0 < v ∧ 0 < dget chips v) → s.Nodup →
    calc_transfer_go chips s ((s.map (fun v => v * dget chips v)).sum) acc
      = (acc ++ s.map (fun v => (v, dget chips v)), 0) := by
  intro s
  induction s with
  | nil => intro acc _ _; simp [calc_transfer_go]
  | cons v rest ih =>
    intro acc hpos hnd
    have hv : 0 < v := (hpos v (List.mem_cons_self _ _)).1
    have hq : 0 < dget chips v := (hpos v (List.mem_cons_self _ _)).2
    set q := dget chips v with hqdef
    set S := (rest.map (fun w => w * dget chips w)).sum with hSdef
    have hsum : ((v :: rest).map (fun w => w * dget chips w)).sum = v * q + S := by
      simp [hSdef]
    have hge : q ≤ (v * q + S) / v := by
      rw [Nat.le_div_iff_mul_le hv]
      calc q * v = v * q := Nat.mul_comm _ _
        _ ≤ v * q + S := Nat.le_add_right _ _
    have hneed : (v * q + S) / v > 0 := by omega
    have hmin : min ((v * q + S) / v) q = q := Nat.min_eq_right hge
    have hrem : v * q + S - q * v = S := by
      have : q * v = v * q := Nat.mul_comm _ _
      omega
    rw [hsum]
    simp only [calc_transfer_go, if_pos hneed, hmin, ← hqdef, hrem]
    have := ih (acc ++ [(v, q)]) (fun w hw => hpos w (List.mem_cons_of_mem _ hw))
      ((List.nodup_cons.mp hnd).2)
    rw [this]
    simp

theorem wfChips_tail (p : Nat × Nat) (rest : List (Nat × Nat))
    (hwf : wfChips (p :: rest)) : wfChips rest := by
  obtain ⟨hnd, hpos⟩ := hwf
  simp only [dkeys, List.map_cons, List.nodup_cons] at hnd
  exact ⟨hnd.2, fun q hq => hpos q (List.mem_cons_of_mem _ hq)⟩

theorem dget_pos_of_mem_keys (m : List (Nat × Nat)) (hwf : wfChips m) (v : Nat)
    (hv : v ∈ dkeys m) : 0 < dget m v := by
  induction m with
  | nil => simp [dkeys] at hv
  | cons p rest ih =>
    obtain ⟨k, q⟩ := p
    by_cases hk : k = v
    · subst hk
      rw [dget_cons_self]
      exact (hwf.2 (k, q) (List.mem_cons_self _ _)).2
    · rw [dget_cons_ne _ _ _ _ (Ne.symm hk)]
      have hv' : v ∈ dkeys rest := by
        simp only [dkeys, List.map_cons, List.mem_cons] at hv
        rcases hv with hv | hv
        · exact absurd hv.symm hk
        · exact hv
      exact ih (wfChips_tail _ _ hwf) hv'

theorem key_pos_of_mem_keys (m : List (Nat × Nat)) (hwf : wfChips m) (v : Nat)
    (hv : v ∈ dkeys m) : 0 < v := by
  obtain ⟨p, hp, hpv⟩ := List.mem_map.mp hv
  exact hpv ▸ (hwf.2 p hp).1

theorem calculate_chip_transfer_full (h : ChipHolder) (hwf : wfChips h.chips) :
    h.calculate_chip_transfer h.total
      = .ok ((sortDesc (dkeys h.chips)).map (fun v => (v, dget h.chips v))) := by
  have hnd := hwf.1
  have hpos : ∀ v ∈ sortDesc (dkeys h.chips), 0 < v ∧ 0 < dget h.chips v := by
    intro v hv
    have hvk : v ∈ dkeys h.chips := (sortDesc_perm _).mem_iff.mp hv
    exact ⟨key_pos_of_mem_keys _ hwf _ hvk, dget_pos_of_mem_keys _ hwf _ hvk⟩
  have hsum : ((sortDesc (dkeys h.chips)).map (fun v => v * dget h.chips v)).sum = h.total := by
    rw [ChipHolder.total_eq_ltotal, ← ltotal_keys_sum h.chips hnd]
    exact ((sortDesc_perm (dkeys h.chips)).map _).sum_eq
  unfold ChipHolder.calculate_chip_transfer
  rw [← hsum]
  rw [calc_transfer_go_full h.chips _ [] hpos ((sortDesc_perm _).nodup_iff.mpr hnd)]
  simp

theorem transfer_to_eq_apply (src dst : ChipHolder) (amount : Nat) (l : List (Nat × Nat))
    (hcalc : src.calculate_chip_transfer amount = .ok l)
    (h0 : amount ≠ 0) (hle : amount ≤ src.total) :
    src.transfer_to dst amount = transfer_apply src dst l := by
  unfold ChipHolder.transfer_to
  rw [if_neg h0, if_neg (by omega : ¬ src.total < amount)]
  show transfer_go src dst amount (99 + 1) = _
  simp only [transfer_go, hcalc]

theorem transfer_go_dst_total : ∀ (fuel : Nat) (src dst : ChipHolder) (amount : Nat)
    (src' dst' : ChipHolder),
    transfer_go src dst amount fuel = .ok (src', dst') →
    dst'.total = dst.total + amount ∧ dst'.denominations = dst.denominations := by
  intro fuel
  induction fuel with
  | zero =>
    intro src dst amount src' dst' h
    exact Except.noConfusion h
  | succ fuel ih =>
    intro src dst amount src' dst' h
    cases hcalc : src.calculate_chip_transfer amount with
    | ok l =>
      simp only [transfer_go, hcalc] at h
      obtain ⟨ht, hd⟩ := transfer_apply_dst_total l src dst src' dst' h
      obtain ⟨hsum, _, _⟩ := calculate_chip_transfer_ok_props src amount l hcalc
      exact ⟨by rw [ht, hsum], hd⟩
    | error e =>
      cases hex : src.exchange_with_bank amount with
      | ok src1 =>
        simp only [transfer_go, hcalc, hex] at h
        exact ih src1 dst amount src' dst' h
      | error e' =>
        simp only [transfer_go, hcalc, hex] at h
        exact Except.noConfusion h

/-- On any successful transfer the destination gains exactly the amount,
regardless of which bank exchanges took place on the source side. -/
theorem transfer_to_dst_total (src dst : ChipHolder) (amount : Nat)
    (src' dst' : ChipHolder)
    (h : src.transfer_to dst amount = .ok (src', dst')) :
    dst'.total = dst.total + amount ∧ dst'.denominations = dst.denominations := by
  unfold ChipHolder.transfer_to at h
  by_cases h0 : amount = 0
  · rw [if_pos h0] at h
    cases h
    subst h0
    exact ⟨rfl, rfl⟩
  rw [if_neg h0] at h
  by_cases hlt : src.total < amount
  · rw [if_pos hlt] at h
    exact Except.noConfusion h
  rw [if_neg hlt] at h
  exact transfer_go_dst_total 100 src dst amount src' dst' h

/-! ## Claim C7: greedy decomposition of a transfer -/

/-- The decomposition described by the claim and the spec: for each held
denomination in descending order, take min(amount still needed div
denomination, count available) chips. This definition follows the claim
wording and is compared below with the transfer list the source code
computes. -/
def greedy_spec_go (avail : Nat → Nat) : List Nat → Nat → List (Nat × Nat)
  | [], _ => []
  | v :: vs, needed =>
    let take := min (needed / v) (avail v)
    (if take > 0 then [(v, take)] else []) ++ greedy_spec_go avail vs (needed - take * v)

/-- The claimed greedy largest-denomination-first decomposition over the
current inventory of a holder. -/
def greedy_decomposition (h : ChipHolder) (amount : Nat) : List (Nat × Nat) :=
  greedy_spec_go (dget h.chips) (sortDesc (dkeys h.chips)) amount

theorem calc_go_eq_greedy (chips : List (Nat × Nat)) :
    ∀ (s : List Nat) (remaining : Nat) (acc : List (Nat × Nat)),
    (∀ v ∈ s, 0 < dget chips v) →
    (calc_transfer_go chips s remaining acc).1
      = acc ++ greedy_spec_go (dget chips) s remaining := by
  intro s
  induction s with
  | nil => intro remaining acc _; simp [calc_transfer_go, greedy_spec_go]
  | cons v rest ih =>
    intro remaining acc hpos
    have hav : 0 < dget chips v := hpos v (List.mem_cons_self _ _)
    by_cases hn : remaining / v > 0
    · have htake : min (remaining / v) (dget chips v) > 0 := lt_min hn hav
      simp only [calc_transfer_go, if_pos hn, greedy_spec_go, if_pos htake]
      rw [ih _ _ (fun w hw => hpos w (List.mem_cons_of_mem _ hw))]
      simp
    · have htake : min (remaining / v) (dget chips v) = 0 := by
        have hz : remaining / v = 0 := Nat.eq_zero_of_not_pos hn
        simp [hz]
      simp only [calc_transfer_go, if_neg hn, greedy_spec_go, htake]
      rw [ih _ _ (fun w hw => hpos w (List.mem_cons_of_mem _ hw))]
      simp

theorem calc_go_zero (chips : List (Nat × Nat)) :
    ∀ (s : List Nat) (acc : List (Nat × Nat)),
    calc_transfer_go chips s 0 acc = (acc, 0) := by
  intro s
  induction s with
  | nil => intro acc; rfl
  | cons v rest ih =>
    intro acc
    simp only [calc_transfer_go, Nat.zero_div]
    exact ih acc

theorem greedy_spec_zero (avail : Nat → Nat) :
    ∀ (s : List Nat), greedy_spec_go avail s 0 = [] := by
  intro s
  induction s with
  | nil => rfl
  | cons v rest ih =>
    simp only [greedy_spec_go, Nat.zero_div, Nat.zero_min, Nat.zero_mul]
    simpa using ih

/-- C7. When the greedy calculation over the current inventory succeeds
(no bank exchange needed) and the holder can cover the amount, transfer_to
succeeds, the transfer list is exactly the greedy
largest-denomination-first decomposition of the claim, and precisely those
per-denomination counts are removed from the source and added to the
destination. -/
theorem transfer_to_moves_greedy_decomposition
    (src dst : ChipHolder) (amount : Nat) (l : List (Nat × Nat))
    (hwfs : wfChips src.chips) (hwfd : wfChips dst.chips)
    (hcalc : src.calculate_chip_transfer amount = .ok l)
    (hle : amount ≤ src.total) :
    l = greedy_decomposition src amount ∧
    ltotal l = amount ∧
    ∃ src' dst', src.transfer_to dst amount = .ok (src', dst') ∧
      (∀ w, dget src'.chips w + dget l w = dget src.chips w) ∧
      (∀ w, dget dst'.chips w = dget dst.chips w + dget l w) ∧
      src'.total + amount = src.total ∧
      dst'.total = dst.total + amount := by
  have hposkeys : ∀ v ∈ sortDesc (dkeys src.chips), 0 < dget src.chips v := by
    intro v hv
    exact dget_pos_of_mem_keys _ hwfs _ ((sortDesc_perm _).mem_iff.mp hv)
  have hleq : l = greedy_decomposition src amount := by
    unfold ChipHolder.calculate_chip_transfer at hcalc
    by_cases hrem : (calc_transfer_go src.chips (sortDesc (dkeys src.chips)) amount []).2 > 0
    · rw [if_pos hrem] at hcalc
      exact Except.noConfusion hcalc
    · rw [if_neg hrem] at hcalc
      cases hcalc
      unfold greedy_decomposition
      rw [calc_go_eq_greedy src.chips _ amount [] hposkeys]
      simp
  obtain ⟨hsum, hbounds, hndl⟩ := calculate_chip_transfer_ok_props src amount l hcalc
  refine ⟨hleq, hsum, ?_⟩
  by_cases h0 : amount = 0
  · subst h0
    have hl : l = [] := by
      unfold ChipHolder.calculate_chip_transfer at hcalc
      rw [calc_go_zero] at hcalc
      simpa using hcalc.symm
    subst hl
    refine ⟨src, dst, ?_, fun w => by simp [dget], fun w => by simp [dget], by simp, by simp⟩
    unfold ChipHolder.transfer_to
    rw [if_pos rfl]
  · obtain ⟨src', dst', happly, _, _, hsrcw, hdstw, hsrct, hdstt, _, _⟩ :=
      transfer_apply_spec l src dst hwfs.1 (hndl hwfs.1)
        (fun p hp => key_pos_of_mem_keys _ hwfs _ (hbounds p hp).1)
        (fun p hp => (hbounds p hp).2)
    refine ⟨src', dst', ?_, hsrcw, hdstw, by omega, by omega⟩
    rw [transfer_to_eq_apply src dst amount l hcalc h0 hle]
    exact happly

/-- Witness for C7: a holder with chips {25: 2, 10: 1, 1: 7} transferring
32 moves one 25 chip and seven 1 chips, skipping the 10. -/
theorem transfer_to_moves_greedy_decomposition_witness :
    [(25, 1), (1, 7)] = greedy_decomposition (ChipHolder.init [(25, 2), (10, 1), (1, 7)] []) 32 ∧
    ltotal [(25, 1), (1, 7)] = 32 ∧
    ∃ src' dst',
      (ChipHolder.init [(25, 2), (10, 1), (1, 7)] []).transfer_to (ChipHolder.init [] []) 32
        = .ok (src', dst') ∧
      (∀ w, dget src'.chips w + dget [(25, 1), (1, 7)] w
        = dget (ChipHolder.init [(25, 2), (10, 1), (1, 7)] []).chips w) ∧
      (∀ w, dget dst'.chips w = dget (ChipHolder.init [] []).chips w
        + dget [(25, 1), (1, 7)] w) ∧
      src'.total + 32 = (ChipHolder.init [(25, 2), (10, 1), (1, 7)] []).total ∧
      dst'.total = (ChipHolder.init [] []).total + 32 :=
  transfer_to_moves_greedy_decomposition
    (ChipHolder.init [(25, 2), (10, 1), (1, 7)] []) (ChipHolder.init [] []) 32
    [(25, 1), (1, 7)] (by decide) (by decide) (by rfl) (by decide)

/-! ## Claim C9: positivity invariant of the chip mapping -/

theorem add_breakdown_wf : ∀ (l : List (Nat × Nat)) (h h' : ChipHolder),
    add_breakdown h l = .ok h' → wfChips h.chips → wfChips h'.chips := by
  intro l
  induction l with
  | nil =>
    intro h h' hok hwf
    cases hok
    exact hwf
  | cons p rest ih =>
    obtain ⟨v, q⟩ := p
    intro h h' hok hwf
    cases hadd : h.add_chips v q with
    | error e =>
      simp only [add_breakdown, hadd] at hok
      exact Except.noConfusion hok
    | ok h1 =>
      simp only [add_breakdown, hadd] at hok
      exact ih h1 h' hok ((add_chips_spec h h1 v q hadd).2.2.2.2.2 hwf)

theorem exchange_with_bank_wf (h h' : ChipHolder) (amount : Nat)
    (hok : h.exchange_with_bank amount = .ok h') (hwf : wfChips h.chips) :
    wfChips h'.chips := by
  unfold ChipHolder.exchange_with_bank at hok
  cases hfind : find_breakable h.chips (sortDesc (dkeys h.chips)) amount with
  | some chip_value =>
    rw [hfind] at hok
    cases hrem : h.remove_chips chip_value 1 with
    | error e =>
      simp only [hrem] at hok
      exact Except.noConfusion hok
    | ok h1 =>
      simp only [hrem] at hok
      exact add_breakdown_wf _ h1 h' hok
        ((remove_chips_spec h h1 chip_value 1 hwf.1 hrem).2.2.2.2.2.2 hwf)
  | none =>
    rw [hfind] at hok
    cases hmax : maxKey h.chips with
    | error e =>
      simp only [hmax] at hok
      exact Except.noConfusion hok
    | ok largest =>
      simp only [hmax] at hok
      by_cases hpos : dget h.chips largest > 0
      · rw [if_pos hpos] at hok
        cases hrem : h.remove_chips largest 1 with
        | error e =>
          simp only [hrem] at hok
          exact Except.noConfusion hok
        | ok h1 =>
          simp only [hrem] at hok
          exact add_breakdown_wf _ h1 h' hok
            ((remove_chips_spec h h1 largest 1 hwf.1 hrem).2.2.2.2.2.2 hwf)
      · rw [if_neg hpos] at hok
        cases hok
        exact hwf

theorem transfer_apply_wf : ∀ (l : List (Nat × Nat)) (src dst src' dst' : ChipHolder),
    transfer_apply src dst l = .ok (src', dst') →
    (wfChips src.chips → wfChips src'.chips) ∧ (wfChips dst.chips → wfChips dst'.chips) := by
  intro l
  induction l with
  | nil =>
    intro src dst src' dst' h
    cases h
    exact ⟨fun hw => hw, fun hw => hw⟩
  | cons p rest ih =>
    obtain ⟨v, q⟩ := p
    intro src dst src' dst' h
    cases hrem : src.remove_chips v q with
    | error e =>
      simp only [transfer_apply, hrem] at h
      exact Except.noConfusion h
    | ok src1 =>
      cases hadd : dst.add_chips v q with
      | error e =>
        simp only [transfer_apply, hrem, hadd] at h
        exact Except.noConfusion h
      | ok dst1 =>
        simp only [transfer_apply, hrem, hadd] at h
        obtain ⟨ih1, ih2⟩ := ih src1 dst1 src' dst' h
        refine ⟨fun hw => ih1 ((remove_chips_spec src src1 v q hw.1 hrem).2.2.2.2.2.2 hw),
          fun hw => ih2 ((add_chips_spec dst dst1 v q hadd).2.2.2.2.2 hw)⟩

theorem transfer_go_wf : ∀ (fuel : Nat) (src dst : ChipHolder) (amount : Nat)
    (src' dst' : ChipHolder),
    transfer_go src dst amount fuel = .ok (src', dst') →
    (wfChips src.chips → wfChips src'.chips) ∧ (wfChips dst.chips → wfChips dst'.chips) := by
  intro fuel
  induction fuel with
  | zero =>
    intro src dst amount src' dst' h
    exact Except.noConfusion h
  | succ fuel ih =>
    intro src dst amount src' dst' h
    cases hcalc : src.calculate_chip_transfer amount with
    | ok l =>
      simp only [transfer_go, hcalc] at h
      exact transfer_apply_wf l src dst src' dst' h
    | error e =>
      cases hex : src.exchange_with_bank amount with
      | ok src1 =>
        simp only [transfer_go, hcalc, hex] at h
        obtain ⟨ih1, ih2⟩ := ih src1 dst amount src' dst' h
        exact ⟨fun hw => ih1 (exchange_with_bank_wf src src1 amount hex hw), ih2⟩
      | error e' =>
        simp only [transfer_go, hcalc, hex] at h
        exact Except.noConfusion h

theorem transfer_to_wf (src dst : ChipHolder) (amount : Nat) (src' dst' : ChipHolder)
    (h : src.transfer_to dst amount = .ok (src', dst')) :
    (wfChips src.chips → wfChips src'.chips) ∧ (wfChips dst.chips → wfChips dst'.chips) := by
  unfold ChipHolder.transfer_to at h
  by_cases h0 : amount = 0
  · rw [if_pos h0] at h
    cases h
    exact ⟨fun hw => hw, fun hw => hw⟩
  rw [if_neg h0] at h
  by_cases hlt : src.total < amount
  · rw [if_pos hlt] at h
    exact Except.noConfusion h
  rw [if_neg hlt] at h
  exact transfer_go_wf 100 src dst amount src' dst' h

theorem transfer_all_go_wf : ∀ (l : List (Nat × Nat)) (src dst src' dst' : ChipHolder),
    transfer_all_go src dst l = .ok (src', dst') →
    (wfChips src.chips → wfChips src'.chips) ∧ (wfChips dst.chips → wfChips dst'.chips) := by
  intro l
  induction l with
  | nil =>
    intro src dst src' dst' h
    cases h
    exact ⟨fun hw => hw, fun hw => hw⟩
  | cons p rest ih =>
    obtain ⟨v, q⟩ := p
    intro src dst src' dst' h
    cases hadd : dst.add_chips v q with
    | error e =>
      simp only [transfer_all_go, hadd] at h
      exact Except.noConfusion h
    | ok dst1 =>
      cases hrem : src.remove_chips v q with
      | error e =>
        simp only [transfer_all_go, hadd, hrem] at h
        exact Except.noConfusion h
      | ok src1 =>
        simp only [transfer_all_go, hadd, hrem] at h
        obtain ⟨ih1, ih2⟩ := ih src1 dst1 src' dst' h
        refine ⟨fun hw => ih1 ((remove_chips_spec src src1 v q hw.1 hrem).2.2.2.2.2.2 hw),
          fun hw => ih2 ((add_chips_spec dst dst1 v q hadd).2.2.2.2.2 hw)⟩

/-- C9 (amended). Every mutating ChipHolder operation preserves the
dictionary invariant (distinct keys, positive denominations, strictly
positive counts, zero counts removed); construction, however, copies the
given dictionary verbatim without validation, so the invariant holds after
construction only when the initial dictionary already satisfies it. -/
theorem chip_operations_preserve_positivity :
    (∀ (h h' : ChipHolder) (v q : Nat), wfChips h.chips →
      h.add_chips v q = .ok h' → wfChips h'.chips) ∧
    (∀ (h h' : ChipHolder) (v q : Nat), wfChips h.chips →
      h.remove_chips v q = .ok h' → wfChips h'.chips) ∧
    (∀ (src dst src' dst' : ChipHolder) (amount : Nat),
      src.transfer_to dst amount = .ok (src', dst') →
      (wfChips src.chips → wfChips src'.chips) ∧
      (wfChips dst.chips → wfChips dst'.chips)) ∧
    (∀ (src dst src' dst' : ChipHolder),
      src.transfer_all_to dst = .ok (src', dst') →
      (wfChips src.chips → wfChips src'.chips) ∧
      (wfChips dst.chips → wfChips dst'.chips)) ∧
    (∀ (chips : List (Nat × Nat)) (denominations : List Nat),
      (ChipHolder.init chips denominations).chips = chips) := by
  refine ⟨?_, ?_, ?_, ?_, ?_⟩
  · intro h h' v q hwf hok
    exact (add_chips_spec h h' v q hok).2.2.2.2.2 hwf
  · intro h h' v q hwf hok
    exact (remove_chips_spec h h' v q hwf.1 hok).2.2.2.2.2.2 hwf
  · intro src dst src' dst' amount hok
    exact transfer_to_wf src dst amount src' dst' hok
  · intro src dst src' dst' hok
    exact transfer_all_go_wf src.chips src dst src' dst' hok
  · intro chips denominations
    rfl

/-- Witness for C9: the preservation statements applied at concrete
holders. -/
theorem chip_operations_preserve_positivity_witness :
    wfChips ((ChipHolder.init [(5, 3)] []).chips) ∧
    (∀ h', (ChipHolder.init [(5, 3)] []).add_chips 1 2 = .ok h' → wfChips h'.chips) ∧
    (∀ h', (ChipHolder.init [(5, 3)] []).remove_chips 5 3 = .ok h' → wfChips h'.chips) := by
  refine ⟨by decide, ?_, ?_⟩
  · intro h' hok
    exact chip_operations_preserve_positivity.1 _ h' 1 2 (by decide) hok
  · intro h' hok
    exact chip_operations_preserve_positivity.2.1 _ h' 5 3 (by decide) hok

/-- Counterexample for C9 as stated: construction from {5: 0} keeps the
zero-count entry, so the invariant that zero counts are removed does not
hold after construction. -/
theorem chip_init_keeps_zero_count :
    (ChipHolder.init [(5, 0)] []).chips = [(5, 0)] ∧
    dmem (ChipHolder.init [(5, 0)] []).chips 5 = true ∧
    dget (ChipHolder.init [(5, 0)] []).chips 5 = 0 ∧
    ¬ wfChips (ChipHolder.init [(5, 0)] []).chips := by
  refine ⟨rfl, rfl, rfl, ?_⟩
  decide

/-! ## Claim C6: evaluate_hand returns the maximum over all 5-card subsets -/

theorem tuple_lt_irrefl : ∀ a : List Nat, tuple_lt a a = false := by
  intro a
  induction a with
  | nil => rfl
  | cons x xs ih => simp [tuple_lt, ih]

theorem tuple_lt_trans : ∀ a b c : List Nat,
    tuple_lt a b = true → tuple_lt b c = true → tuple_lt a c = true := by
  intro a
  induction a with
  | nil =>
    intro b c hab hbc
    cases b with
    | nil => exact absurd hab (by simp [tuple_lt])
    | cons y ys =>
      cases c with
      | nil => exact absurd hbc (by simp [tuple_lt])
      | cons z zs => simp [tuple_lt]
  | cons x xs ih =>
    intro b c hab hbc
    cases b with
    | nil => exact absurd hab (by simp [tuple_lt])
    | cons y ys =>
      cases c with
      | nil => exact absurd hbc (by simp [tuple_lt])
      | cons z zs =>
        simp only [tuple_lt] at hab hbc ⊢
        by_cases hxy : x < y
        · by_cases hyz : y < z
          · rw [if_pos (by omega)]
          · simp only [if_neg hyz] at hbc
            by_cases hzy : z < y
            · simp only [if_pos hzy] at hbc
              exact absurd hbc (by simp)
            · have : y = z := by omega
              subst this
              rw [if_pos hxy]
        · simp only [if_neg hxy] at hab
          by_cases hyx : y < x
          · simp only [if_pos hyx] at hab
            exact absurd hab (by simp)
          · rw [if_neg hyx] at hab
            have hxe : x = y := by omega
            subst hxe
            by_cases hyz : x < z
            · rw [if_pos hyz]
            · simp only [if_neg hyz] at hbc ⊢
              by_cases hzy : z < x
              · simp only [if_pos hzy] at hbc
                exact absurd hbc (by simp)
              · simp only [if_neg hzy] at hbc ⊢
                exact ih ys zs hab hbc

theorem tuple_lt_total : ∀ a b : List Nat,
    tuple_lt a b = true ∨ tuple_lt b a = true ∨ a = b := by
  intro a
  induction a with
  | nil =>
    intro b
    cases b with
    | nil => right; right; rfl
    | cons y ys => left; simp [tuple_lt]
  | cons x xs ih =>
    intro b
    cases b with
    | nil => right; left; simp [tuple_lt]
    | cons y ys =>
      by_cases hxy : x < y
      · left; simp [tuple_lt, hxy]
      · by_cases hyx : y < x
        · right; left; simp [tuple_lt, hyx]
        · have : x = y := by omega
          subst this
          rcases ih ys with h | h | h
          · left; simp [tuple_lt, h]
          · right; left; simp [tuple_lt, h]
          · right; right; rw [h]

theorem combinations_ne_nil {α : Type} :
    ∀ (l : List α) (k : Nat), k ≤ l.length → combinations k l ≠ [] := by
  intro l
  induction l with
  | nil =>
    intro k hk
    have : k = 0 := by simpa using hk
    subst this
    simp [combinations]
  | cons x xs ih =>
    intro k hk
    cases k with
    | zero => simp [combinations]
    | succ k =>
      have hk' : k ≤ xs.length := by simpa using hk
      have hne := ih k hk'
      simp only [combinations]
      intro hcontra
      rcases List.append_eq_nil.mp hcontra with ⟨h1, _⟩
      exact hne (List.map_eq_nil_iff.mp h1)

theorem foldl_best_spec : ∀ (combos : List (List Card)) (b : List Nat),
    ∃ r, combos.foldl best_step (some b) = some r ∧
      (r = b ∨ r ∈ combos.map evaluate_five_cards) ∧
      tuple_lt r b = false ∧
      (∀ v ∈ combos.map evaluate_five_cards, tuple_lt r v = false) := by
  intro combos
  induction combos with
  | nil =>
    intro b
    exact ⟨b, rfl, Or.inl rfl, tuple_lt_irrefl b, by simp⟩
  | cons c rest ih =>
    intro b
    set e := evaluate_five_cards c with hedef
    by_cases hlt : tuple_lt b e = true
    · obtain ⟨r, hfold, hmem, hrb, hall⟩ := ih e
      refine ⟨r, ?_, ?_, ?_, ?_⟩
      · simpa [best_step, ← hedef, hlt] using hfold
      · rcases hmem with h | h
        · right; rw [h]; exact List.mem_cons_self _ _
        · right; exact List.mem_cons_of_mem _ h
      · by_cases hrbe : tuple_lt r b = true
        · exfalso
          have := tuple_lt_trans r b e hrbe hlt
          rw [this] at hrb
          exact Bool.noConfusion hrb
        · exact eq_false_of_ne_true hrbe
      · intro v hv
        rcases List.mem_cons.mp hv with hv | hv
        · rw [hv]; exact hrb
        · exact hall v hv
    · obtain ⟨r, hfold, hmem, hrb, hall⟩ := ih b
      refine ⟨r, ?_, ?_, hrb, ?_⟩
      · have hstep : best_step (some b) c = some b := by
          simp [best_step, ← hedef, hlt]
        simpa [hstep] using hfold
      · rcases hmem with h | h
        · left; exact h
        · right; exact List.mem_cons_of_mem _ h
      · intro v hv
        rcases List.mem_cons.mp hv with hv | hv
        · subst hv
          -- v = e; show tuple_lt r e = false
          by_cases hre : tuple_lt r e = true
          · exfalso
            rcases tuple_lt_total r b with h | h | h
            · rw [h] at hrb; exact Bool.noConfusion hrb
            · have := tuple_lt_trans b r e h hre
              rw [this] at hlt; exact hlt rfl
            · subst h
              rw [hre] at hlt; exact hlt rfl
          · exact eq_false_of_ne_true hre
        · exact hall v hv

/-- C6. evaluate_hand errors on fewer than five cards; with at least five
cards it returns the lexicographic maximum of _evaluate_five_cards over
all five-card combinations of the input. -/
theorem evaluate_hand_max_over_subsets (cards : List Card) :
    (cards.length < 5 → evaluate_hand cards = .error "Need at least 5 cards to evaluate") ∧
    (5 ≤ cards.length → ∃ r, evaluate_hand cards = .ok (some r) ∧
      r ∈ (combinations 5 cards).map evaluate_five_cards ∧
      (∀ v ∈ (combinations 5 cards).map evaluate_five_cards,
        tuple_lt r v = false ∧ (v = r ∨ tuple_lt v r = true))) := by
  constructor
  · intro hlt
    unfold evaluate_hand
    rw [if_pos hlt]
  · intro hge
    unfold evaluate_hand
    rw [if_neg (by omega)]
    cases hcombos : combinations 5 cards with
    | nil => exact absurd hcombos (combinations_ne_nil cards 5 hge)
    | cons c rest =>
      obtain ⟨r, hfold, hmem, hrb, hall⟩ := foldl_best_spec rest (evaluate_five_cards c)
      refine ⟨r, ?_, ?_, ?_⟩
      · simp only [List.foldl_cons]
        have hstep : best_step none c = some (evaluate_five_cards c) := rfl
        rw [hstep, hfold]
      · simp only [List.map_cons]
        rcases hmem with h | h
        · rw [h]; exact List.mem_cons_self _ _
        · exact List.mem_cons_of_mem _ h
      · intro v hv
        have hnlt : tuple_lt r v = false := by
          simp only [List.map_cons, List.mem_cons] at hv
          rcases hv with hv' | hv'
          · rw [hv']; exact hrb
          · exact hall v hv'
        refine ⟨hnlt, ?_⟩
        rcases tuple_lt_total v r with h | h | h
        · right; exact h
        · rw [h] at hnlt; exact Bool.noConfusion hnlt
        · left; exact h

/-- Witness for C6: two cards are rejected; the seven-card straight-flush
hand from the repository test evaluates to the 2-6 hearts straight flush,
the maximum over its 21 five-card subsets. -/
theorem evaluate_hand_max_over_subsets_witness :
    evaluate_hand [⟨2, .hearts⟩, ⟨3, .hearts⟩] = .error "Need at least 5 cards to evaluate" ∧
    ∃ r, evaluate_hand [⟨5, .hearts⟩, ⟨6, .hearts⟩, ⟨2, .hearts⟩, ⟨3, .hearts⟩,
        ⟨4, .hearts⟩, ⟨7, .clubs⟩, ⟨8, .clubs⟩] = .ok (some r) ∧
      r ∈ (combinations 5 [⟨5, .hearts⟩, ⟨6, .hearts⟩, ⟨2, .hearts⟩, ⟨3, .hearts⟩,
        ⟨4, .hearts⟩, ⟨7, .clubs⟩, ⟨8, .clubs⟩]).map evaluate_five_cards ∧
      (∀ v ∈ (combinations 5 [⟨5, .hearts⟩, ⟨6, .hearts⟩, ⟨2, .hearts⟩, ⟨3, .hearts⟩,
        ⟨4, .hearts⟩, ⟨7, .clubs⟩, ⟨8, .clubs⟩]).map evaluate_five_cards,
        tuple_lt r v = false ∧ (v = r ∨ tuple_lt v r = true)) :=
  ⟨(evaluate_hand_max_over_subsets [⟨2, .hearts⟩, ⟨3, .hearts⟩]).1 (by decide),
   (evaluate_hand_max_over_subsets _).2 (by decide)⟩

/-! ## Claim C8: single-survivor showdown -/

theorem getPlayer_setPlayer_self (g : PokerState) (i : Nat) (p : Player)
    (hi : i < g.players.length) : getPlayer (setPlayer g i p) i = p := by
  unfold getPlayer setPlayer
  simp [List.getD_eq_getElem?_getD, List.getElem?_set_self, hi]

theorem getPlayer_setPlayer_ne (g : PokerState) (i : Nat) (p : Player) (j : Nat)
    (hij : i ≠ j) : getPlayer (setPlayer g i p) j = getPlayer g j := by
  unfold getPlayer setPlayer
  simp [List.getD_eq_getElem?_getD, List.getElem?_set_ne hij]

theorem setPlayer_length (g : PokerState) (i : Nat) (p : Player) :
    (setPlayer g i p).players.length = g.players.length := List.length_set _ _ _

theorem mem_activeIdx_lt (g : PokerState) (i : Nat) (hi : i ∈ activeIdx g) :
    i < g.players.length := by
  unfold activeIdx at hi
  exact List.mem_range.mp (List.mem_filter.mp hi).1

/-- C8. With exactly one non-folded player, execute_showdown transfers the
whole pot to that player in a single transfer, touches no other player,
and returns exactly that player as winner; no hand evaluation takes place
(the theorem holds for arbitrary, even empty, hands). -/
theorem showdown_single_survivor (g : PokerState) (wi : Nat)
    (hactive : activeIdx g = [wi])
    (hwf : wfChips g.pot.chips) :
    ∃ g', execute_showdown g = .ok ([wi], g') ∧
      (getPlayer g' wi).chips.total = (getPlayer g wi).chips.total + g.pot.total ∧
      g'.pot.total = 0 ∧
      g'.players.length = g.players.length ∧
      (∀ j, j ≠ wi → getPlayer g' j = getPlayer g j) := by
  have hwi : wi < g.players.length :=
    mem_activeIdx_lt g wi (hactive ▸ List.mem_cons_self _ _)
  by_cases hpot : g.pot.total > 0
  · -- the pot is transferred in full; the greedy calculation on the whole
    -- total always succeeds, so the transfer cannot fail
    have hcalc := calculate_chip_transfer_full g.pot hwf
    set lfull := (sortDesc (dkeys g.pot.chips)).map (fun v => (v, dget g.pot.chips v))
      with hldef
    obtain ⟨hsum, _, _⟩ := calculate_chip_transfer_ok_props g.pot g.pot.total lfull hcalc
    have hkeys : dkeys lfull = sortDesc (dkeys g.pot.chips) := by
      rw [hldef]
      unfold dkeys
      rw [List.map_map]
      have hfid : (Prod.fst ∘ fun v => (v, dget g.pot.chips v)) = fun v => v := rfl
      rw [hfid]
      exact List.map_id' _
    obtain ⟨pot', chips', happly, _, _, _, _, hsrct, hdstt, _, _⟩ :=
      transfer_apply_spec lfull g.pot (getPlayer g wi).chips hwf.1
        (by rw [hkeys]; exact (sortDesc_perm _).nodup_iff.mpr hwf.1)
        (by
          intro p hp
          obtain ⟨v, hv, hpv⟩ := List.mem_map.mp hp
          have hvk : v ∈ dkeys g.pot.chips := (sortDesc_perm _).mem_iff.mp hv
          exact hpv ▸ key_pos_of_mem_keys _ hwf _ hvk)
        (by
          intro p hp
          obtain ⟨v, hv, hpv⟩ := List.mem_map.mp hp
          exact hpv ▸ Nat.le_refl _)
    have htrans : g.pot.transfer_to (getPlayer g wi).chips g.pot.total
        = .ok (pot', chips') := by
      rw [transfer_to_eq_apply g.pot (getPlayer g wi).chips g.pot.total lfull hcalc
        (by omega) (Nat.le_refl _)]
      exact happly
    refine ⟨setPlayer { g with pot := pot' } wi { getPlayer g wi with chips := chips' },
      ?_, ?_, ?_, ?_, ?_⟩
    · unfold execute_showdown
      rw [hactive]
      simp only [List.length_singleton, if_pos rfl, List.headD_cons]
      rw [if_pos hpot, htrans]
      rfl
    · rw [getPlayer_setPlayer_self _ _ _ (by simpa using hwi)]
      simp only
      omega
    · show pot'.total = 0
      omega
    · simp [setPlayer_length]
    · intro j hj
      rw [getPlayer_setPlayer_ne _ _ _ _ (Ne.symm hj)]
      rfl
  · -- empty pot: no transfer happens
    refine ⟨g, ?_, by omega, by omega, rfl, fun j _ => rfl⟩
    unfold execute_showdown
    rw [hactive]
    simp only [List.length_singleton, if_pos rfl, List.headD_cons]
    rw [if_neg hpot]
    rfl

/-- The single-survivor scenario of the repository test: three players,
two folded, pot of ten 5 chips. -/
def gSurvivor : PokerState :=
  { blind_amount := 20
    players :=
      [{ player_num := 0, chips := ChipHolder.init [(5, 100)] [], hand := [],
         folded := false, bet := 0 },
       { player_num := 1, chips := ChipHolder.init [(5, 100)] [], hand := [],
         folded := true, bet := 0 },
       { player_num := 2, chips := ChipHolder.init [(5, 100)] [], hand := [],
         folded := true, bet := 0 }]
    community_cards := []
    pot := ChipHolder.init [(5, 10)] []
    dealer_index := 0 }

/-- Witness for C8: the surviving player 0 gains the 50 in the pot, the
pot empties, and no hand evaluation is possible (all hands are empty). -/
theorem showdown_single_survivor_witness :
    ∃ g', execute_showdown gSurvivor = .ok ([0], g') ∧
      (getPlayer g' 0).chips.total = (getPlayer gSurvivor 0).chips.total + gSurvivor.pot.total ∧
      g'.pot.total = 0 ∧
      g'.players.length = gSurvivor.players.length ∧
      (∀ j, j ≠ 0 → getPlayer g' j = getPlayer gSurvivor j) :=
  showdown_single_survivor gSurvivor 0 (by decide) (by decide)

/-! ## Claim C4: split-pot remainder distribution -/

theorem award_go_spec : ∀ (ws : List (Nat × List Nat)) (i : Nat) (g g' : PokerState)
    (share rem : Nat),
    award_go share rem g i ws = .ok g' →
    (ws.map Prod.fst).Nodup →
    (∀ w ∈ ws.map Prod.fst, w < g.players.length) →
    g'.players.length = g.players.length ∧
    (∀ j (hj : j < ws.length),
      (getPlayer g' (ws.get ⟨j, hj⟩).1).chips.total
        = (getPlayer g (ws.get ⟨j, hj⟩).1).chips.total + share
          + (if i + j < rem then 1 else 0)) ∧
    (∀ u, u ∉ ws.map Prod.fst → getPlayer g' u = getPlayer g u) := by
  intro ws
  induction ws with
  | nil =>
    intro i g g' share rem hok _ _
    cases hok
    exact ⟨rfl, fun j hj => absurd hj (by simp), fun u _ => rfl⟩
  | cons p rest ih =>
    obtain ⟨w, hv⟩ := p
    intro i g g' share rem hok hnd hbound
    have hw : w < g.players.length := hbound w (by simp)
    have hwrest : w ∉ rest.map Prod.fst := (List.nodup_cons.mp (by simpa using hnd)).1
    have hndrest : (rest.map Prod.fst).Nodup := (List.nodup_cons.mp (by simpa using hnd)).2
    cases htr : g.pot.transfer_to (getPlayer g w).chips
        (share + (if i < rem then 1 else 0)) with
    | error e =>
      simp only [award_go, htr] at hok
      exact Except.noConfusion hok
    | ok res =>
      obtain ⟨pot', chips'⟩ := res
      simp only [award_go, htr] at hok
      set g1 := setPlayer { g with pot := pot' } w { getPlayer g w with chips := chips' }
        with hg1
      have hlen1 : g1.players.length = g.players.length := by
        rw [hg1]; exact setPlayer_length _ _ _
      have hg1w : getPlayer g1 w = { getPlayer g w with chips := chips' } := by
        rw [hg1]
        exact getPlayer_setPlayer_self _ _ _ (by simpa using hw)
      have hg1u : ∀ u, u ≠ w → getPlayer g1 u = getPlayer g u := by
        intro u hu
        rw [hg1]
        exact getPlayer_setPlayer_ne _ _ _ _ (Ne.symm hu)
      obtain ⟨hlen, hper, hother⟩ := ih (i + 1) g1 g' share rem hok hndrest
        (fun u hu => by rw [hlen1]; exact hbound u (List.mem_cons_of_mem _ hu))
      obtain ⟨hdstt, _⟩ := transfer_to_dst_total _ _ _ _ _ htr
      refine ⟨hlen.trans hlen1, ?_, ?_⟩
      · intro j hj
        cases j with
        | zero =>
          simp only [List.get]
          have hg'w : getPlayer g' w = getPlayer g1 w := hother w hwrest
          rw [hg'w, hg1w]
          simp only [Nat.add_zero]
          omega
        | succ j' =>
          have hj' : j' < rest.length := by simpa using hj
          have := hper j' hj'
          simp only [List.get]
          rw [this]
          have hu : (rest.get ⟨j', hj'⟩).1 ≠ w ∨ (rest.get ⟨j', hj'⟩).1 = w := by tauto
          have hmem : (rest.get ⟨j', hj'⟩).1 ∈ rest.map Prod.fst :=
            List.mem_map.mpr ⟨rest.get ⟨j', hj'⟩, rest.get_mem _ _, rfl⟩
          have hne : (rest.get ⟨j', hj'⟩).1 ≠ w := fun he => hwrest (he ▸ hmem)
          rw [hg1u _ hne]
          have : i + 1 + j' = i + (j' + 1) := by omega
          rw [this]
      · intro u hu
        have hunotrest : u ∉ rest.map Prod.fst := fun hc => hu (List.mem_cons_of_mem _ hc)
        have hune : u ≠ w := fun he => hu (by simp [he])
        rw [hother u hunotrest, hg1u u hune]

theorem award_pot_spec (g : PokerState) (ranked : List (Nat × List Nat))
    (ws : List Nat) (g' : PokerState)
    (hok : award_pot g ranked = .ok (ws, g'))
    (hnd : (ranked.map Prod.fst).Nodup)
    (hbound : ∀ w ∈ ranked.map Prod.fst, w < g.players.length) :
    ∀ j (hj : j < ws.length),
      (getPlayer g' (ws.get ⟨j, hj⟩)).chips.total
        = (getPlayer g (ws.get ⟨j, hj⟩)).chips.total + g.pot.total / ws.length
          + (if j < g.pot.total % ws.length then 1 else 0) := by
  cases ranked with
  | nil =>
    simp only [award_pot] at hok
    exact Except.noConfusion hok
  | cons best rest =>
    simp only [award_pot] at hok
    set winners := (best :: rest).filter (fun r => r.2 == best.2) with hwdef
    cases hgo : award_go (g.pot.total / winners.length) (g.pot.total % winners.length)
        g 0 winners with
    | error e =>
      rw [hgo] at hok
      exact Except.noConfusion hok
    | ok g1 =>
      rw [hgo] at hok
      have hinj : (winners.map Prod.fst, g1) = (ws, g') := by
        injection hok
      have hws : winners.map Prod.fst = ws := congrArg Prod.fst hinj
      have hg1 : g1 = g' := congrArg Prod.snd hinj
      subst hws
      subst hg1
      have hsub : (winners.map Prod.fst).Sublist ((best :: rest).map Prod.fst) :=
        (List.filter_sublist _).map _
      obtain ⟨_, hper, _⟩ := award_go_spec winners 0 g g1
        (g.pot.total / winners.length) (g.pot.total % winners.length) hgo
        (hsub.nodup hnd) (fun u hu => hbound u (hsub.mem hu))
      intro j hj
      have hj' : j < winners.length := by simpa using hj
      have := hper j hj'
      have hget : (winners.map Prod.fst).get ⟨j, hj⟩ = (winners.get ⟨j, hj'⟩).1 := by
        simp
      rw [hget]
      rw [this]
      have hlen : (winners.map Prod.fst).length = winners.length := by simp
      rw [hlen]
      simp only [Nat.zero_add]

theorem split_go_spec : ∀ (ws : List Nat) (i : Nat) (g g' : PokerState)
    (share rem : Nat),
    split_go share rem g i ws = .ok g' →
    ws.Nodup →
    (∀ w ∈ ws, w < g.players.length) →
    g'.players.length = g.players.length ∧
    (∀ j (hj : j < ws.length),
      (getPlayer g' (ws.get ⟨j, hj⟩)).chips.total
        = (getPlayer g (ws.get ⟨j, hj⟩)).chips.total + share
          + (if i + j < rem then 1 else 0)) ∧
    (∀ u, u ∉ ws → getPlayer g' u = getPlayer g u) := by
  intro ws
  induction ws with
  | nil =>
    intro i g g' share rem hok _ _
    cases hok
    exact ⟨rfl, fun j hj => absurd hj (by simp), fun u _ => rfl⟩
  | cons w rest ih =>
    intro i g g' share rem hok hnd hbound
    have hw : w < g.players.length := hbound w (List.mem_cons_self _ _)
    have hwrest : w ∉ rest := (List.nodup_cons.mp hnd).1
    have hndrest : rest.Nodup := (List.nodup_cons.mp hnd).2
    by_cases hamt : share + (if i < rem then 1 else 0) > 0
    · rw [show split_go share rem g i (w :: rest)
          = (match g.pot.transfer_to (getPlayer g w).chips
              (share + (if i < rem then 1 else 0)) with
            | .ok (pot', chips') =>
              split_go share rem
                (setPlayer { g with pot := pot' } w { getPlayer g w with chips := chips' })
                (i + 1) rest
            | .error (e, pot', chips') =>
              .error (e, setPlayer { g with pot := pot' } w
                { getPlayer g w with chips := chips' }))
          from by simp only [split_go, if_pos hamt]] at hok
      cases htr : g.pot.transfer_to (getPlayer g w).chips
          (share + (if i < rem then 1 else 0)) with
      | error e =>
        obtain ⟨e1, pot1, chips1⟩ := e
        rw [htr] at hok
        exact Except.noConfusion hok
      | ok res =>
        obtain ⟨pot', chips'⟩ := res
        rw [htr] at hok
        set g1 := setPlayer { g with pot := pot' } w { getPlayer g w with chips := chips' }
          with hg1
        have hlen1 : g1.players.length = g.players.length := by
          rw [hg1]; exact setPlayer_length _ _ _
        have hg1w : getPlayer g1 w = { getPlayer g w with chips := chips' } := by
          rw [hg1]
          exact getPlayer_setPlayer_self _ _ _ (by simpa using hw)
        have hg1u : ∀ u, u ≠ w → getPlayer g1 u = getPlayer g u := by
          intro u hu
          rw [hg1]
          exact getPlayer_setPlayer_ne _ _ _ _ (Ne.symm hu)
        obtain ⟨hlen, hper, hother⟩ := ih (i + 1) g1 g' share rem hok hndrest
          (fun u hu => by rw [hlen1]; exact hbound u (List.mem_cons_of_mem _ hu))
        obtain ⟨hdstt, _⟩ := transfer_to_dst_total _ _ _ _ _ htr
        refine ⟨hlen.trans hlen1, ?_, ?_⟩
        · intro j hj
          cases j with
          | zero =>
            simp only [List.get]
            have hg'w : getPlayer g' w = getPlayer g1 w := hother w hwrest
            rw [hg'w, hg1w]
            simp only [Nat.add_zero]
            omega
          | succ j' =>
            have hj' : j' < rest.length := by simpa using hj
            have := hper j' hj'
            simp only [List.get]
            rw [this]
            have hmem : rest.get ⟨j', hj'⟩ ∈ rest := rest.get_mem _ _
            have hne : rest.get ⟨j', hj'⟩ ≠ w := fun he => hwrest (he ▸ hmem)
            rw [hg1u _ hne]
            have : i + 1 + j' = i + (j' + 1) := by omega
            rw [this]
        · intro u hu
          have hunotrest : u ∉ rest := fun hc => hu (List.mem_cons_of_mem _ hc)
          have hune : u ≠ w := fun he => hu (by simp [he])
          rw [hother u hunotrest, hg1u u hune]
    · -- nothing to pay this seat: the state is untouched and the loop recurses
      rw [show split_go share rem g i (w :: rest) = split_go share rem g (i + 1) rest
          from by simp only [split_go, if_neg hamt]] at hok
      obtain ⟨hlen, hper, hother⟩ := ih (i + 1) g g' share rem hok hndrest
        (fun u hu => hbound u (List.mem_cons_of_mem _ hu))
      refine ⟨hlen, ?_, ?_⟩
      · intro j hj
        cases j with
        | zero =>
          simp only [List.get]
          have hg'w : getPlayer g' w = getPlayer g w := hother w hwrest
          rw [hg'w]
          simp only [Nat.add_zero]
          omega
        | succ j' =>
          have hj' : j' < rest.length := by simpa using hj
          have := hper j' hj'
          simp only [List.get]
          rw [this]
          have : i + 1 + j' = i + (j' + 1) := by omega
          rw [this]
      · intro u hu
        exact hother u (fun hc => hu (List.mem_cons_of_mem _ hc))

theorem activeIdx_nodup (g : PokerState) : (activeIdx g).Nodup :=
  (List.nodup_range _).filter _

theorem insufficient_cards_split_spec (g : PokerState) (ws : List Nat) (g' : PokerState)
    (hok : execute_showdown g = .ok (ws, g'))
    (hn1 : (activeIdx g).length ≠ 1)
    (hcards : ((activeIdx g).map (fun i => (getPlayer g i).hand.length)).sum
        + g.community_cards.length < 5) :
    ws = activeIdx g ∧
    ∀ j (hj : j < ws.length),
      (getPlayer g' (ws.get ⟨j, hj⟩)).chips.total
        = (getPlayer g (ws.get ⟨j, hj⟩)).chips.total + g.pot.total / ws.length
          + (if j < g.pot.total % ws.length then 1 else 0) := by
  unfold execute_showdown at hok
  rw [if_neg hn1, if_pos hcards] at hok
  by_cases h0 : (activeIdx g).length = 0
  · rw [if_pos h0] at hok
    exact Except.noConfusion hok
  · rw [if_neg h0] at hok
    dsimp only at hok
    cases hgo : split_go (g.pot.total / (activeIdx g).length)
        (g.pot.total % (activeIdx g).length) g 0 (activeIdx g) with
    | error e =>
      rw [hgo] at hok
      exact Except.noConfusion hok
    | ok g1 =>
      rw [hgo] at hok
      have hinj : (activeIdx g, g1) = (ws, g') := by injection hok
      have hws : activeIdx g = ws := congrArg Prod.fst hinj
      have hg1 : g1 = g' := congrArg Prod.snd hinj
      subst hg1
      obtain ⟨_, hper, _⟩ := split_go_spec (activeIdx g) 0 g g1
        (g.pot.total / (activeIdx g).length) (g.pot.total % (activeIdx g).length) hgo
        (activeIdx_nodup g) (fun u hu => mem_activeIdx_lt g u hu)
      subst hws
      refine ⟨rfl, ?_⟩
      intro j hj
      have := hper j hj
      rw [this]
      simp only [Nat.zero_add]

/-- Two players whose hole cards are irrelevant because the five community
cards form the best hand for both: a guaranteed tie. -/
def gTie : PokerState :=
  { blind_amount := 0
    players :=
      [{ player_num := 0, chips := ChipHolder.init [(1, 100)] [],
         hand := [⟨2, .clubs⟩, ⟨3, .clubs⟩], folded := false, bet := 0 },
       { player_num := 1, chips := ChipHolder.init [(1, 100)] [],
         hand := [⟨2, .diamonds⟩, ⟨3, .diamonds⟩], folded := false, bet := 0 }]
    community_cards := [⟨14, .hearts⟩, ⟨13, .diamonds⟩, ⟨12, .clubs⟩, ⟨11, .spades⟩,
      ⟨10, .hearts⟩]
    pot := ChipHolder.init [(1, 101)] []
    dealer_index := 0 }

/-- Three active players with no cards dealt and a pot of 10: the
insufficient-cards split branch. -/
def gSplit : PokerState :=
  { blind_amount := 0
    players :=
      [{ player_num := 0, chips := ChipHolder.init [(1, 100)] [], hand := [],
         folded := false, bet := 0 },
       { player_num := 1, chips := ChipHolder.init [(1, 100)] [], hand := [],
         folded := false, bet := 0 },
       { player_num := 2, chips := ChipHolder.init [(1, 100)] [], hand := [],
         folded := false, bet := 0 }]
    community_cards := []
    pot := ChipHolder.init [(1, 10)] []
    dealer_index := 0 }

/-- C4. The pot split, for both splitting situations. Tie branch: whenever
award_pot returns normally for distinct, in-range winner indices, the j-th
winner (in order) receives exactly floor(pot/k) plus one extra unit when
j < pot mod k. Insufficient-cards branch: whenever execute_showdown
returns normally on a state with more than one active player and fewer
than five visible cards, the winners are exactly the active players in
seat order and the j-th receives floor(pot/k) plus one extra unit when
j < pot mod k. On concrete states: two tied winners of a 101 pot receive
51 and 50 in order, and the fewer-than-five-cards branch splits a pot of
10 among three active players as 4, 3, 3. -/
theorem award_pot_remainder_split :
    (∀ (g : PokerState) (ranked : List (Nat × List Nat)) (ws : List Nat) (g' : PokerState),
      award_pot g ranked = .ok (ws, g') →
      (ranked.map Prod.fst).Nodup →
      (∀ w ∈ ranked.map Prod.fst, w < g.players.length) →
      ∀ j (hj : j < ws.length),
        (getPlayer g' (ws.get ⟨j, hj⟩)).chips.total
          = (getPlayer g (ws.get ⟨j, hj⟩)).chips.total + g.pot.total / ws.length
            + (if j < g.pot.total % ws.length then 1 else 0)) ∧
    (∀ (g : PokerState) (ws : List Nat) (g' : PokerState),
      execute_showdown g = .ok (ws, g') →
      (activeIdx g).length ≠ 1 →
      ((activeIdx g).map (fun i => (getPlayer g i).hand.length)).sum
          + g.community_cards.length < 5 →
      ws = activeIdx g ∧
      ∀ j (hj : j < ws.length),
        (getPlayer g' (ws.get ⟨j, hj⟩)).chips.total
          = (getPlayer g (ws.get ⟨j, hj⟩)).chips.total + g.pot.total / ws.length
            + (if j < g.pot.total % ws.length then 1 else 0)) ∧
    ((execute_showdown gTie).map (fun r =>
        (r.1, (getPlayer r.2 0).chips.total, (getPlayer r.2 1).chips.total, r.2.pot.total))
      = .ok ([0, 1], 151, 150, 0)) ∧
    ((execute_showdown gSplit).map (fun r =>
        (r.1, r.2.players.map (fun p => p.chips.total), r.2.pot.total))
      = .ok ([0, 1, 2], [104, 103, 103], 0)) := by
  refine ⟨award_pot_spec, insufficient_cards_split_spec, ?_, ?_⟩
  · rfl
  · rfl

/-- The two-way tie fed directly to award_pot for the witness. -/
def gAward : PokerState :=
  { blind_amount := 0
    players :=
      [{ player_num := 0, chips := { chips := [(1, 100)], denominations := [1] },
         hand := [], folded := false, bet := 0 },
       { player_num := 1, chips := { chips := [(1, 100)], denominations := [1] },
         hand := [], folded := false, bet := 0 }]
    community_cards := []
    pot := { chips := [(1, 101)], denominations := [1] }
    dealer_index := 0 }

/-- The state after award_pot splits the 101 pot of gAward between the two
tied players. -/
def gAwarded : PokerState :=
  { blind_amount := 0
    players :=
      [{ player_num := 0, chips := { chips := [(1, 151)], denominations := [1] },
         hand := [], folded := false, bet := 0 },
       { player_num := 1, chips := { chips := [(1, 150)], denominations := [1] },
         hand := [], folded := false, bet := 0 }]
    community_cards := []
    pot := { chips := [], denominations := [1] }
    dealer_index := 0 }

/-- The state after the insufficient-cards branch splits the pot of 10 of
gSplit among its three active players as 4, 3, 3. -/
def gSplitDone : PokerState :=
  { blind_amount := 0
    players :=
      [{ player_num := 0, chips := { chips := [(1, 104)], denominations := [1] },
         hand := [], folded := false, bet := 0 },
       { player_num := 1, chips := { chips := [(1, 103)], denominations := [1] },
         hand := [], folded := false, bet := 0 },
       { player_num := 2, chips := { chips := [(1, 103)], denominations := [1] },
         hand := [], folded := false, bet := 0 }]
    community_cards := []
    pot := { chips := [], denominations := [1] }
    dealer_index := 0 }

/-- Witness for C4: the general tie-split statement applied to the
concrete two-way tie with pot 101, and the general insufficient-cards
statement applied to the concrete three-player state with pot 10. -/
theorem award_pot_remainder_split_witness :
    award_pot gAward [(0, [1, 1]), (1, [1, 1])] = .ok ([0, 1], gAwarded) ∧
    (getPlayer gAwarded (([0, 1] : List Nat).get ⟨0, by decide⟩)).chips.total
      = (getPlayer gAward (([0, 1] : List Nat).get ⟨0, by decide⟩)).chips.total
        + gAward.pot.total / ([0, 1] : List Nat).length
        + (if 0 < gAward.pot.total % ([0, 1] : List Nat).length then 1 else 0) ∧
    (getPlayer gAwarded (([0, 1] : List Nat).get ⟨1, by decide⟩)).chips.total
      = (getPlayer gAward (([0, 1] : List Nat).get ⟨1, by decide⟩)).chips.total
        + gAward.pot.total / ([0, 1] : List Nat).length
        + (if 1 < gAward.pot.total % ([0, 1] : List Nat).length then 1 else 0) ∧
    execute_showdown gSplit = .ok ([0, 1, 2], gSplitDone) ∧
    (([0, 1, 2] : List Nat) = activeIdx gSplit ∧
      ∀ j (hj : j < ([0, 1, 2] : List Nat).length),
        (getPlayer gSplitDone (([0, 1, 2] : List Nat).get ⟨j, hj⟩)).chips.total
          = (getPlayer gSplit (([0, 1, 2] : List Nat).get ⟨j, hj⟩)).chips.total
            + gSplit.pot.total / ([0, 1, 2] : List Nat).length
            + (if j < gSplit.pot.total % ([0, 1, 2] : List Nat).length then 1 else 0)) :=
  ⟨rfl,
   award_pot_remainder_split.1 gAward [(0, [1, 1]), (1, [1, 1])] [0, 1] gAwarded rfl
     (by decide) (by decide) 0 (by decide),
   award_pot_remainder_split.1 gAward [(0, [1, 1]), (1, [1, 1])] [0, 1] gAwarded rfl
     (by decide) (by decide) 1 (by decide),
   rfl,
   award_pot_remainder_split.2.1 gSplit [0, 1, 2] gSplitDone rfl (by decide) (by decide)⟩

/-! ## Claim C10: processing a check is state-free -/

/-- C10. A check action leaves the whole state untouched: when the acting
player already matches the current bet it is accepted, consuming only the
scripted action; otherwise it is rejected and the engine re-solicits,
behaving exactly as if the invalid action had never been produced. -/
theorem process_check_state_free (g : PokerState) (idx current_bet : Nat)
    (script : List String) :
    ((getPlayer g idx).bet = current_bet →
      handle_player_action g idx current_bet ("check" :: script)
        = some (g, current_bet, none, script)) ∧
    ((getPlayer g idx).bet ≠ current_bet →
      handle_player_action g idx current_bet ("check" :: script)
        = handle_player_action g idx current_bet script) := by
  have hred : handle_player_action g idx current_bet ("check" :: script)
      = (if process_check (getPlayer g idx) current_bet
         then some (g, current_bet, none, script)
         else handle_player_action g idx current_bet script) := by
    simp only [handle_player_action]
    rw [if_neg (show ¬ (str_startsWith (str_toLower "check") "fold" = true) by decide),
      if_pos (show (str_startsWith (str_toLower "check") "check" = true) by decide)]
  constructor
  · intro hbet
    rw [hred, if_pos (by simp [process_check, hbet])]
  · intro hbet
    rw [hred, if_neg (by simp [process_check, hbet])]

/-- Witness for C10 at a concrete three-player state: a matching check is
accepted with no state change; a non-matching check is skipped over. -/
theorem process_check_state_free_witness :
    handle_player_action gSplit 0 0 ["check", "fold"]
      = some (gSplit, 0, none, ["fold"]) ∧
    handle_player_action gSplit 0 5 ["check", "fold"]
      = handle_player_action gSplit 0 5 ["fold"] :=
  ⟨(process_check_state_free gSplit 0 0 ["fold"]).1 (by decide),
   (process_check_state_free gSplit 0 5 ["fold"]).2 (by decide)⟩

/-! ## Claim C3: betting round termination -/

theorem betting_loop_exit : ∀ (fuel : Nat) (g : PokerState) (scripts : Scripts)
    (ha : List Bool) (lr : Option Nat) (cb idx : Nat)
    (g' : PokerState) (scr' : Scripts) (ha' : List Bool) (cb' : Nat),
    betting_loop fuel g scripts ha lr cb idx = some (g', scr', ha', cb') →
    (get_active_players g').length ≤ 1 ∨ all_done g' ha' cb' = true := by
  intro fuel
  induction fuel with
  | zero =>
    intro g scripts ha lr cb idx g' scr' ha' cb' h
    exact Option.noConfusion h
  | succ fuel ih =>
    intro g scripts ha lr cb idx g' scr' ha' cb' h
    simp only [betting_loop] at h
    by_cases h1 : ((getPlayer g idx).folded || (getPlayer g idx).chips.total == 0) = true
    · rw [if_pos h1] at h
      by_cases hdone : all_done g ha cb = true
      · rw [if_pos hdone] at h
        have hinj := Option.some.inj h
        cases hinj
        right
        exact hdone
      · rw [if_neg hdone] at h
        exact ih g scripts ha lr cb _ g' scr' ha' cb' h
    · rw [if_neg h1] at h
      by_cases h2 : ((ha.getD idx false && (getPlayer g idx).bet == cb)
          && (lr.elim true (fun l => idx ≠ l))) = true
      · rw [if_pos h2] at h
        by_cases hdone : all_done g ha cb = true
        · rw [if_pos hdone] at h
          have hinj := Option.some.inj h
          cases hinj
          right
          exact hdone
        · rw [if_neg hdone] at h
          exact ih g scripts ha lr cb _ g' scr' ha' cb' h
      · rw [if_neg h2] at h
        cases hh : handle_player_action g idx cb (List.getD scripts (getPlayer g idx).player_num []) with
        | none =>
          rw [hh] at h
          exact Option.noConfusion h
        | some res =>
          obtain ⟨g1, nb, ri, rest⟩ := res
          rw [hh] at h
          cases ri with
          | some r =>
            simp only at h
            by_cases hact : (get_active_players g1).length ≤ 1
            · rw [if_pos hact] at h
              have hinj := Option.some.inj h
              cases hinj
              left
              exact hact
            · rw [if_neg hact] at h
              by_cases hdone : all_done g1 (ha.set idx true) nb = true
              · rw [if_pos hdone] at h
                have hinj := Option.some.inj h
                cases hinj
                right
                exact hdone
              · rw [if_neg hdone] at h
                exact ih g1 _ _ _ _ _ g' scr' ha' cb' h
          | none =>
            simp only at h
            by_cases hact : (get_active_players g1).length ≤ 1
            · rw [if_pos hact] at h
              have hinj := Option.some.inj h
              cases hinj
              left
              exact hact
            · rw [if_neg hact] at h
              by_cases hdone : all_done g1 (ha.set idx true) cb = true
              · rw [if_pos hdone] at h
                have hinj := Option.some.inj h
                cases hinj
                right
                exact hdone
              · rw [if_neg hdone] at h
                exact ih g1 _ _ _ _ _ g' scr' ha' cb' h

/-- Three players with 100 unit chips each and no bets yet. -/
def g3bet : PokerState :=
  { blind_amount := 0
    players :=
      [{ player_num := 0, chips := { chips := [(1, 100)], denominations := [1] },
         hand := [], folded := false, bet := 0 },
       { player_num := 1, chips := { chips := [(1, 100)], denominations := [1] },
         hand := [], folded := false, bet := 0 },
       { player_num := 2, chips := { chips := [(1, 100)], denominations := [1] },
         hand := [], folded := false, bet := 0 }]
    community_cards := []
    pot := { chips := [], denominations := [1] }
    dealer_index := 0 }

/-- C3 (amended). Scenario a: after P1 raises and P2 and P3 call, the
round terminates with all bets matched and every scripted action consumed.
Scenario b: after P1 raises and P2 re-raises, P1 is solicited again (its
second scripted action is consumed) before the round ends. In general,
whenever the round function returns, either at most one player is
non-folded, or every non-folded player is all-in or has acted and matched
the final current bet, or the round was skipped outright because at most
one non-folded player still had chips at entry. -/
theorem betting_round_termination :
    ((betting_round g3bet [["raise 10"], ["call"], ["call"]] 0 50).map (fun r =>
        (r.1.players.map (·.bet), r.1.pot.total, r.2.1, r.2.2.1, r.2.2.2))
      = some ([10, 10, 10], 30, [[], [], []], [true, true, true], 10)) ∧
    ((betting_round g3bet [["raise 10", "call"], ["raise 10"], ["call"]] 0 50).map (fun r =>
        (r.1.players.map (·.bet), r.1.pot.total, r.2.1))
      = some ([20, 20, 20], 60, [[], [], []])) ∧
    (∀ (g : PokerState) (scripts : Scripts) (start fuel : Nat)
        (g' : PokerState) (scr' : Scripts) (ha' : List Bool) (cb' : Nat),
      betting_round g scripts start fuel = some (g', scr', ha', cb') →
      (get_active_players g').length ≤ 1 ∨ all_done g' ha' cb' = true ∨
        (g.players.filter (fun p => !p.folded && p.chips.total != 0)).length ≤ 1) := by
  refine ⟨rfl, rfl, ?_⟩
  intro g scripts start fuel g' scr' ha' cb' h
  unfold betting_round at h
  by_cases hguard :
      (g.players.filter (fun p => !p.folded && p.chips.total != 0)).length ≤ 1
  · right; right; exact hguard
  · rw [if_neg hguard] at h
    rcases betting_loop_exit fuel g scripts _ none _ start g' scr' ha' cb' h with h' | h'
    · left; exact h'
    · right; left; exact h'

/-- A postflop-style state in which one of the two non-folded players is
already all-in (zero chips) from an earlier street. -/
def gGuard : PokerState :=
  { blind_amount := 0
    players :=
      [{ player_num := 0, chips := { chips := [], denominations := [1] },
         hand := [], folded := false, bet := 0 },
       { player_num := 1, chips := { chips := [(1, 100)], denominations := [1] },
         hand := [], folded := false, bet := 0 }]
    community_cards := []
    pot := { chips := [(1, 40)], denominations := [1] }
    dealer_index := 0 }

/-- Counterexample for C3 as stated: with two non-folded players of which
exactly one still has chips, _betting_round returns immediately without
soliciting anyone (the scripts are untouched and the has_acted flags stay
false), yet the round-end condition of the claim is false: two players are
non-folded, and the player with chips is neither all-in nor has acted. -/
theorem betting_round_guard_skips_round :
    betting_round gGuard [["check"], ["check"]] 0 5
      = some (gGuard, [["check"], ["check"]], [false, false], 0) ∧
    ¬ ((get_active_players gGuard).length ≤ 1) ∧
    all_done gGuard [false, false] 0 = false := by
  refine ⟨rfl, by decide, by decide⟩

/-- Witness for C3: the general exit disjunction applied to the concrete
skipped round. -/
theorem betting_round_termination_witness :
    (get_active_players gGuard).length ≤ 1 ∨ all_done gGuard [false, false] 0 = true ∨
      (gGuard.players.filter (fun p => !p.folded && p.chips.total != 0)).length ≤ 1 :=
  betting_round_termination.2.2 gGuard [["check"], ["check"]] 0 5 gGuard
    [["check"], ["check"]] [false, false] 0 rfl
